import Mathlib

/-!
Verification development for the Brainfuck virtual machine in
`src/lib/vm/bf_vm.c`.

The engine is shallowly embedded: machine bytes are `Nat` values reduced
modulo 256 where the C code relies on `uint8_t` wraparound, fallible
operations return explicit result constructors, and the potentially
non-terminating dispatch loop is driven by explicit fuel.  The `fold`
flag of the dispatch loop selects between the run-length-folded
execution that the C code performs (`fold = true`) and the
character-at-a-time execution that the specification compares it
against (`fold = false`); both instances share every other line of the
embedding, mirroring the fact that the C folding loop only changes the
`count` argument of each bulk operation.
-/

namespace BfVm

/-! ### Error codes (`bf_vm.c`, lines 10-21) -/

def BF_SUCCESS : Int := 0
def BF_ERR_MEMORY_OUT_OF_BOUNDS : Int := -1
def BF_ERR_INPUT_EOF : Int := -2
def BF_ERR_OUTPUT_OVERFLOW : Int := -3
def BF_ERR_UNMATCHED_BRACKET_CLOSE : Int := -4
def BF_ERR_UNMATCHED_BRACKET_OPEN : Int := -5
def BF_ERR_TAPE_ALLOC_FAILED : Int := -6
def BF_ERR_JUMPTABLE_ALLOC_FAILED : Int := -7
def BF_ERR_STACK_OVERFLOW : Int := -8
def BF_ERR_DEBUG_HALT_REQUESTED : Int := -9
def BF_ERR_INVALID_ARGS : Int := -10

def MAX_BRACKET_DEPTH : Nat := 4096

/-! ### Jump-table builder (`build_jump_table`, lines 59-103)

The C jump table is a `size_t` array whose entries are written only at
bracket positions; unwritten entries stay uninitialized and are never
read after a successful build.  We model it as a `List (Option Nat)`
where `none` marks an unwritten entry. -/

inductive BuildRes where
  | ok (tbl : List (Option Nat))
  | err (e : Int)
  deriving DecidableEq

/-- Table lookup: entry at position `p` (uninitialized entries read as
`none`). -/
def tblGet (tbl : List (Option Nat)) (p : Nat) : Option Nat :=
  tbl.getD p none

/-- The scan loop of `build_jump_table`: `rest` is the unscanned suffix
of the code, `i` its absolute starting index, `stack` the pending
open-bracket positions (top first; the C `stack_ptr` is
`stack.length - 1`, so the overflow test `stack_ptr + 1 >=
MAX_BRACKET_DEPTH` is `MAX_BRACKET_DEPTH ≤ stack.length`). -/
def buildAux : List Char → Nat → List Nat → List (Option Nat) → BuildRes
  | [], _, stack, tbl =>
    if stack.isEmpty then .ok tbl else .err BF_ERR_UNMATCHED_BRACKET_OPEN
  | c :: rest, i, stack, tbl =>
    if c = '[' then
      if MAX_BRACKET_DEPTH ≤ stack.length then .err BF_ERR_STACK_OVERFLOW
      else buildAux rest (i + 1) (i :: stack) tbl
    else if c = ']' then
      match stack with
      | [] => .err BF_ERR_UNMATCHED_BRACKET_CLOSE
      | o :: s => buildAux rest (i + 1) s ((tbl.set o (some i)).set i (some o))
    else buildAux rest (i + 1) stack tbl

def build_jump_table (code : List Char) : BuildRes :=
  buildAux code 0 [] (List.replicate code.length none)

/-- The error component of a build result. -/
def errOf : BuildRes → Option Int
  | .ok _ => none
  | .err e => some e

/-- Modelled from the spec (§4.1): the abstract left-to-right scan that
tracks only the number of pending open brackets and reports
stack-overflow on pushing past capacity, unmatched-close on popping an
empty stack, unmatched-open on a non-empty stack after the scan, and
ignores all non-bracket characters.  Used to state C4. -/
def scanSpec : List Char → Nat → Option Int
  | [], n => if n = 0 then none else some BF_ERR_UNMATCHED_BRACKET_OPEN
  | c :: rest, n =>
    if c = '[' then
      if MAX_BRACKET_DEPTH ≤ n then some BF_ERR_STACK_OVERFLOW
      else scanSpec rest (n + 1)
    else if c = ']' then
      if n = 0 then some BF_ERR_UNMATCHED_BRACKET_CLOSE
      else scanSpec rest (n - 1)
    else scanSpec rest n

/-! ### Bracket matching, abstractly

`bval`/`bsum` count bracket depth; `Balanced` says a segment closes
every bracket it opens and never goes below its starting depth;
`Matches code p q` says the pair `(p, q)` is a genuinely matching
open/close pair of `code`. -/

def bval (c : Char) : Int :=
  if c = '[' then 1 else if c = ']' then -1 else 0

def bsum (l : List Char) : Int :=
  (l.map bval).sum

def Balanced (l : List Char) : Prop :=
  bsum l = 0 ∧ ∀ n, 0 ≤ bsum (l.take n)

/-- The half-open slice `code[a..b)`. -/
def slice (code : List Char) (a b : Nat) : List Char :=
  (code.drop a).take (b - a)

def Matches (code : List Char) (p q : Nat) : Prop :=
  p < q ∧ code[p]? = some '[' ∧ code[q]? = some ']' ∧
    Balanced (slice code (p + 1) q)

/-- The scan invariant on the open-bracket stack: each pending open
bracket is followed (up to the next pending open bracket above it, or
the scan frontier) by a fully balanced segment. -/
def segOK (code : List Char) : List Nat → Nat → Prop
  | [], _ => True
  | o :: s, i => Balanced (slice code (o + 1) i) ∧ segOK code s o

/-- The full invariant of the `build_jump_table` scan at frontier `i`
with pending stack `stack` and partial table `tbl`. -/
structure TblInv (code : List Char) (i : Nat) (stack : List Nat)
    (tbl : List (Option Nat)) : Prop where
  len : tbl.length = code.length
  stackLt : ∀ o ∈ stack, o < i
  stackOpen : ∀ o ∈ stack, code[o]? = some '['
  stackSorted : List.Pairwise (fun a b => b < a) stack
  pairs : ∀ p q, tblGet tbl p = some q →
    tblGet tbl q = some p ∧ (Matches code p q ∨ Matches code q p)
  dom : ∀ p q, tblGet tbl p = some q → p < i ∧ p ∉ stack
  cover : ∀ p, p < i → (code[p]? = some '[' ∨ code[p]? = some ']') →
    p ∈ stack ∨ tblGet tbl p ≠ none
  seg : segOK code stack i

/-! ### VM state and the dispatch loop (`bfvm_run`, lines 108-275) -/

/-- The mutable part of `BrainfuckVM`: the tape, both cursors, the
input cursor, the bytes written by `.` so far, and (for stating the
DebugHook contracts) the number of debug-hook invocations made. -/
structure VMState where
  memory : List Nat
  dp : Nat
  ip : Nat
  inPtr : Nat
  output : List Nat
  hookCalls : Nat
  deriving DecidableEq

/-- The read-only part of a run: program text, jump table, input
buffer (`none` models a NULL `input_buf`), output capacity, tape
capacity, optional debug hook and the single-step flag. -/
structure Env where
  code : List Char
  jump : List (Option Nat)
  input : Option (List Nat)
  outMax : Nat
  memSize : Nat
  hook : Option (Nat → Nat → Nat → Bool)
  singleStep : Bool

def initState (memSize : Nat) : VMState :=
  { memory := List.replicate memSize 0, dp := 0, ip := 0, inPtr := 0,
    output := [], hookCalls := 0 }

/-- `vm.memory[vm.dp]`. -/
def cellOf (st : VMState) : Nat :=
  st.memory.getD st.dp 0

inductive StepRes where
  | cont (st : VMState)
  | halt (code : Int) (st : VMState)
  deriving DecidableEq

/-- Length of the maximal run of copies of `c` at the head of `l`
(the count computed by the C folding loop when `l` is the code suffix
starting at `ip`). -/
def runLenAux : List Char → Char → Nat
  | [], _ => 0
  | x :: xs, c => if x = c then runLenAux xs c + 1 else 0

/-- The cases of the C `switch (command)` statement. -/
inductive Instr where
  | right | left | inc | dec | dot | comma | lbrack | rbrack | other
  deriving DecidableEq

def decode (c : Char) : Instr :=
  if c = '>' then .right
  else if c = '<' then .left
  else if c = '+' then .inc
  else if c = '-' then .dec
  else if c = '.' then .dot
  else if c = ',' then .comma
  else if c = '[' then .lbrack
  else if c = ']' then .rbrack
  else .other

/-- The folding count of the C `while` loops at lines 183 and 202:
the length of the maximal run of `command` starting at `ip` when
folding, `1` otherwise. -/
def foldCount (fold : Bool) (env : Env) (st : VMState) : Nat :=
  if fold then runLenAux (env.code.drop st.ip) (env.code.getD st.ip ' ') else 1

/-- One execution of the body of the `switch` statement (lines
176-252), including the trailing `vm.ip++`.  With `fold = true` the
four foldable instructions use the C folding count; with `fold =
false` they use `count = 1`, which is exactly character-at-a-time
execution. -/
def dispatch (fold : Bool) (env : Env) (st : VMState) : StepRes :=
  match decode (env.code.getD st.ip ' ') with
  | .right =>
    let count := foldCount fold env st
    if env.memSize ≤ st.dp + count then .halt BF_ERR_MEMORY_OUT_OF_BOUNDS st
    else .cont { st with dp := st.dp + count, ip := st.ip + count }
  | .left =>
    let count := foldCount fold env st
    if st.dp < count then .halt BF_ERR_MEMORY_OUT_OF_BOUNDS st
    else .cont { st with dp := st.dp - count, ip := st.ip + count }
  | .inc =>
    let count := foldCount fold env st
    .cont { st with memory := st.memory.set st.dp ((cellOf st + count) % 256),
                    ip := st.ip + count }
  | .dec =>
    -- uint8 wraparound: subtracting `count` is adding `255 * count` mod 256
    let count := foldCount fold env st
    .cont { st with memory := st.memory.set st.dp ((cellOf st + 255 * count) % 256),
                    ip := st.ip + count }
  | .dot =>
    if env.outMax ≤ st.output.length then .halt BF_ERR_OUTPUT_OVERFLOW st
    else .cont { st with output := st.output ++ [cellOf st], ip := st.ip + 1 }
  | .comma =>
    match env.input with
    | some buf =>
      if st.inPtr < buf.length then
        .cont { st with memory := st.memory.set st.dp (buf.getD st.inPtr 0 % 256),
                        inPtr := st.inPtr + 1, ip := st.ip + 1 }
      else
        .cont { st with memory := st.memory.set st.dp 0, ip := st.ip + 1 }
    | none => .cont { st with memory := st.memory.set st.dp 0, ip := st.ip + 1 }
  | .lbrack =>
    if cellOf st = 0 then
      .cont { st with ip := (tblGet env.jump st.ip).getD 0 + 1 }
    else if st.ip + 2 < env.code.length ∧
        (env.code.getD (st.ip + 1) ' ' = '-' ∨ env.code.getD (st.ip + 1) ' ' = '+') ∧
        env.code.getD (st.ip + 2) ' ' = ']' then
      let st1 : VMState :=
        { st with memory := st.memory.set st.dp 0, ip := st.ip + 2 }
      match env.hook, env.singleStep with
      | some h, true =>
        let st2 : VMState := { st1 with hookCalls := st1.hookCalls + 1 }
        if h st1.ip st1.dp (cellOf st1) then .halt BF_ERR_DEBUG_HALT_REQUESTED st2
        else .cont { st2 with ip := st2.ip + 1 }
      | _, _ => .cont { st1 with ip := st1.ip + 1 }
    else .cont { st with ip := st.ip + 1 }
  | .rbrack =>
    if cellOf st ≠ 0 then
      .cont { st with ip := (tblGet env.jump st.ip).getD 0 + 1 }
    else .cont { st with ip := st.ip + 1 }
  | .other => .cont { st with ip := st.ip + 1 }

/-- One iteration of the `while (vm.ip < vm.code_len)` loop body: the
debug-hook prelude (lines 163-171) followed by the dispatch. -/
def stepIter (fold : Bool) (env : Env) (st : VMState) : StepRes :=
  match env.hook, env.singleStep with
  | some h, true =>
    let st1 : VMState := { st with hookCalls := st.hookCalls + 1 }
    if h st.ip st.dp (cellOf st) then .halt BF_ERR_DEBUG_HALT_REQUESTED st1
    else dispatch fold env st1
  | _, _ => dispatch fold env st

inductive RunRes where
  | more (st : VMState)
  | done (code : Int) (st : VMState)
  deriving DecidableEq

/-- The dispatch loop with explicit fuel, including the normal-exit
epilogue (lines 255-262): a `0` terminator byte is placed after the
written output if room remains (not counted) and the success code is
the number of bytes written by `.`. -/
def run (fold : Bool) (env : Env) : Nat → VMState → RunRes
  | 0, st => .more st
  | fuel + 1, st =>
    if st.ip < env.code.length then
      match stepIter fold env st with
      | .cont s => run fold env fuel s
      | .halt e s => .done e s
    else
      .done (st.output.length : Int)
        { st with output := st.output ++ (if st.output.length < env.outMax then [0] else []) }

/-- `bfvm_run` (lines 108-275): argument validation (line 122), jump
table construction (line 155), then the folded dispatch loop.  `none`
for `prog` models a NULL `code_buf`, `outPresent = false` a NULL
`out_buf`, `none` for `input` a NULL `input_buf`, and `none` for
`hook` a zero `debug_callback_ptr`. -/
def bfvm_run (prog : Option (List Char)) (input : Option (List Nat))
    (outPresent : Bool) (outMax : Nat) (memSize : Nat)
    (hook : Option (Nat → Nat → Nat → Bool)) (singleStep : Bool)
    (fuel : Nat) : RunRes :=
  if prog = none ∨ outPresent = false ∨ memSize = 0 then
    .done BF_ERR_INVALID_ARGS (initState memSize)
  else
    match build_jump_table (prog.getD []) with
    | .err e => .done e (initState memSize)
    | .ok tbl =>
      run true
        { code := prog.getD [], jump := tbl, input := input, outMax := outMax,
          memSize := memSize, hook := hook, singleStep := singleStep }
        fuel (initState memSize)

/-! ### Relational helpers used by the theorems -/

/-- `k` consecutive continuing loop iterations. -/
inductive stepsTo (fold : Bool) (env : Env) : Nat → VMState → VMState → Prop
  | zero (st : VMState) : stepsTo fold env 0 st st
  | succ (st s s' : VMState) (k : Nat) :
      st.ip < env.code.length → stepIter fold env st = .cont s →
      stepsTo fold env k s s' → stepsTo fold env (k + 1) st s'

/-- Observational agreement of two final results bearing the same
result code: the tape, the bytes written, the input cursor and the
hook-invocation count agree, and on success (a nonnegative code) the
entire states agree.  On a failing code the data pointer is not
observable (the C engine frees the tape before returning). -/
def obsEq (code : Int) (s t : VMState) : Prop :=
  s.memory = t.memory ∧ s.output = t.output ∧ s.inPtr = t.inPtr ∧
    s.hookCalls = t.hookCalls ∧ (0 ≤ code → s = t)

/-- The state carried by a run result. -/
def resSt : RunRes → VMState
  | .more st => st
  | .done _ st => st

/-- The state carried by a step result. -/
def stepSt : StepRes → VMState
  | .cont s => s
  | .halt _ s => s

/-! ### Which result codes each stage can produce -/

lemma dispatch_halt_codes (fold : Bool) (env : Env) (st : VMState) (e : Int) (s : VMState)
    (h : dispatch fold env st = .halt e s) :
    (e = BF_ERR_MEMORY_OUT_OF_BOUNDS ∨ e = BF_ERR_OUTPUT_OVERFLOW ∨
      e = BF_ERR_DEBUG_HALT_REQUESTED) ∧ e < 0 := by
  unfold dispatch at h
  rcases hI : decode (env.code.getD st.ip ' ') with _ | _ | _ | _ | _ | _ | _ | _ | _ <;>
    rw [hI] at h <;> dsimp only at h <;> repeat' split at h
  all_goals first
    | (injection h with h1 h2; subst h1; refine ⟨by tauto, by decide⟩)
    | injection h

lemma stepIter_halt_codes (fold : Bool) (env : Env) (st : VMState) (e : Int) (s : VMState)
    (h : stepIter fold env st = .halt e s) :
    (e = BF_ERR_MEMORY_OUT_OF_BOUNDS ∨ e = BF_ERR_OUTPUT_OVERFLOW ∨
      e = BF_ERR_DEBUG_HALT_REQUESTED) ∧ e < 0 := by
  unfold stepIter at h
  rcases hk : env.hook with _ | hf <;> rw [hk] at h
  · exact dispatch_halt_codes _ _ _ _ _ h
  · cases hs : env.singleStep <;> rw [hs] at h <;> dsimp only at h
    · exact dispatch_halt_codes _ _ _ _ _ h
    · split at h
      · injection h with h1 h2; subst h1
        exact ⟨by tauto, by decide⟩
      · exact dispatch_halt_codes _ _ _ _ _ h

lemma buildAux_err_codes (rest : List Char) :
    ∀ i stack tbl e, buildAux rest i stack tbl = .err e →
    e = BF_ERR_UNMATCHED_BRACKET_CLOSE ∨ e = BF_ERR_UNMATCHED_BRACKET_OPEN ∨
      e = BF_ERR_STACK_OVERFLOW := by
  induction rest with
  | nil =>
    intro i stack tbl e h
    unfold buildAux at h
    split at h
    · injection h
    · injection h with h1; subst h1; tauto
  | cons c rest ih =>
    intro i stack tbl e h
    unfold buildAux at h
    split at h
    · split at h
      · injection h with h1; subst h1; tauto
      · exact ih _ _ _ _ h
    · split at h
      · split at h
        · injection h with h1; subst h1; tauto
        · exact ih _ _ _ _ h
      · exact ih _ _ _ _ h

lemma run_done_codes (fold : Bool) (env : Env) :
    ∀ fuel st e s, run fold env fuel st = .done e s →
    0 ≤ e ∨ e = BF_ERR_MEMORY_OUT_OF_BOUNDS ∨ e = BF_ERR_OUTPUT_OVERFLOW ∨
      e = BF_ERR_DEBUG_HALT_REQUESTED := by
  intro fuel
  induction fuel with
  | zero => intro st e s h; simp [run] at h
  | succ n ih =>
    intro st e s h
    unfold run at h
    split at h
    · rcases hS : stepIter fold env st with s1 | ⟨c1, s1⟩ <;> rw [hS] at h <;>
        dsimp only at h
      · exact ih s1 e s h
      · injection h with h1 h2; subst h1
        exact Or.inr (stepIter_halt_codes _ _ _ _ _ hS).1
    · injection h with h1 h2; subst h1
      exact Or.inl (Int.natCast_nonneg _)

lemma bfvm_run_codes (prog : Option (List Char)) (input : Option (List Nat))
    (outPresent : Bool) (outMax memSize : Nat)
    (hook : Option (Nat → Nat → Nat → Bool)) (singleStep : Bool) (fuel : Nat)
    (e : Int) (s : VMState)
    (h : bfvm_run prog input outPresent outMax memSize hook singleStep fuel = .done e s) :
    e = BF_ERR_INVALID_ARGS ∨ e = BF_ERR_UNMATCHED_BRACKET_CLOSE ∨
      e = BF_ERR_UNMATCHED_BRACKET_OPEN ∨ e = BF_ERR_STACK_OVERFLOW ∨
      0 ≤ e ∨ e = BF_ERR_MEMORY_OUT_OF_BOUNDS ∨ e = BF_ERR_OUTPUT_OVERFLOW ∨
      e = BF_ERR_DEBUG_HALT_REQUESTED := by
  unfold bfvm_run at h
  split at h
  · injection h with h1; subst h1; tauto
  · rcases hb : build_jump_table (prog.getD []) with tbl | e' <;> rw [hb] at h <;>
      dsimp only at h
    · have := run_done_codes _ _ _ _ _ _ h
      tauto
    · injection h with h1 h2; subst h1
      have := buildAux_err_codes _ _ _ _ _ hb
      tauto

/-! ### C5: static errors precede execution -/

/-- C5: for every malformed program (one on which the jump-table
pre-scan fails, i.e. excess close bracket, excess open bracket, or
nesting beyond the depth limit), `bfvm_run` returns that build error
with the VM still in its initial state: no tape cell written, no
input consumed, no output byte written, and the debug hook never
invoked (`hookCalls = 0`), regardless of fuel, input, hook or
single-step mode. -/
theorem C5_static_error_before_execution (code : List Char) (input : Option (List Nat))
    (outMax memSize : Nat) (hook : Option (Nat → Nat → Nat → Bool)) (singleStep : Bool)
    (fuel : Nat) (e : Int) (hms : memSize ≠ 0)
    (hb : build_jump_table code = .err e) :
    bfvm_run (some code) input true outMax memSize hook singleStep fuel
      = .done e (initState memSize) ∧
    (initState memSize).output = [] ∧ (initState memSize).hookCalls = 0 ∧
    (initState memSize).inPtr = 0 ∧ (initState memSize).memory = List.replicate memSize 0 ∧
    (e = BF_ERR_UNMATCHED_BRACKET_CLOSE ∨ e = BF_ERR_UNMATCHED_BRACKET_OPEN ∨
      e = BF_ERR_STACK_OVERFLOW) := by
  refine ⟨?_, rfl, rfl, rfl, rfl, buildAux_err_codes _ _ _ _ _ hb⟩
  unfold bfvm_run
  rw [if_neg (by simp [hms])]
  simp only [Option.getD_some, hb]

/-- Witness for C5 at the concrete malformed program `]`. -/
theorem C5_witness :
    build_jump_table [']'] = .err BF_ERR_UNMATCHED_BRACKET_CLOSE ∧
    bfvm_run (some [']']) none true 1 1 none false 5
      = .done BF_ERR_UNMATCHED_BRACKET_CLOSE (initState 1) :=
  ⟨by decide,
   (C5_static_error_before_execution [']'] none 1 1 none false 5
      BF_ERR_UNMATCHED_BRACKET_CLOSE (by decide) (by decide)).1⟩

/-! ### C9: the invalid-arguments check (corrected) -/

/-- Counterexample to C9 as stated: a zero-length (but non-null)
program with valid buffers is NOT rejected with the invalid-arguments
code; `bfvm_run` runs it and returns success `0` (writing the
uncounted terminator byte), because the C check at line 122 tests
only `!code_buf || !out_buf || requested_mem_size == 0` and never
looks at `code_len`. -/
theorem C9_counterexample :
    bfvm_run (some []) none true 1 1 none false 5
      = .done BF_SUCCESS { memory := [0], dp := 0, ip := 0, inPtr := 0,
                           output := [0], hookCalls := 0 } ∧
    BF_SUCCESS ≠ BF_ERR_INVALID_ARGS := by
  constructor
  · decide
  · decide

/-- C9 (amended): `bfvm_run` returns the invalid-arguments error code
exactly when the program is null, the requested tape capacity is
zero, or the output buffer is null (a zero-length non-null program is
NOT rejected); in every such case it returns immediately with the
pristine initial state — before building the jump table or executing
any instruction, with no output written and the hook never invoked. -/
theorem C9_invalid_args (prog : Option (List Char)) (input : Option (List Nat))
    (outPresent : Bool) (outMax memSize : Nat)
    (hook : Option (Nat → Nat → Nat → Bool)) (singleStep : Bool) (fuel : Nat) :
    ((prog = none ∨ outPresent = false ∨ memSize = 0) →
      bfvm_run prog input outPresent outMax memSize hook singleStep fuel
        = .done BF_ERR_INVALID_ARGS (initState memSize)) ∧
    (∀ s, bfvm_run prog input outPresent outMax memSize hook singleStep fuel
        = .done BF_ERR_INVALID_ARGS s →
      (prog = none ∨ outPresent = false ∨ memSize = 0) ∧ s = initState memSize ∧
      s.output = [] ∧ s.hookCalls = 0) := by
  constructor
  · intro hbad
    unfold bfvm_run
    rw [if_pos hbad]
  · intro s h
    by_cases hbad : prog = none ∨ outPresent = false ∨ memSize = 0
    · refine ⟨hbad, ?_, ?_, ?_⟩ <;>
      · unfold bfvm_run at h
        rw [if_pos hbad] at h
        injection h with h1 h2
        subst h2
        rfl
    · exfalso
      unfold bfvm_run at h
      rw [if_neg hbad] at h
      rcases hb : build_jump_table (prog.getD []) with tbl | e' <;> rw [hb] at h <;>
        dsimp only at h
      · rcases run_done_codes _ _ _ _ _ _ h with h' | h' | h' | h' <;>
          simp [BF_ERR_INVALID_ARGS, BF_ERR_MEMORY_OUT_OF_BOUNDS,
            BF_ERR_OUTPUT_OVERFLOW, BF_ERR_DEBUG_HALT_REQUESTED] at h'
      · injection h with h1 h2
        rcases buildAux_err_codes _ _ _ _ _ hb with h' | h' | h' <;> subst h' <;>
          simp [BF_ERR_INVALID_ARGS, BF_ERR_UNMATCHED_BRACKET_CLOSE,
            BF_ERR_UNMATCHED_BRACKET_OPEN, BF_ERR_STACK_OVERFLOW] at h1

/-- Witness for C9 (amended) at a null program. -/
theorem C9_witness :
    bfvm_run none none true 4 8 none false 100
      = .done BF_ERR_INVALID_ARGS (initState 8) :=
  (C9_invalid_args none none true 4 8 none false 100).1 (Or.inl rfl)

/-! ### Debug-hook bookkeeping lemmas -/

/-- With no registered hook or single-step off, the loop body is just
the dispatch. -/
lemma stepIter_hookOff (fold : Bool) (env : Env) (st : VMState)
    (hOff : env.hook = none ∨ env.singleStep = false) :
    stepIter fold env st = dispatch fold env st := by
  unfold stepIter
  rcases hOff with h | h
  · rw [h]
  · rw [h]; rcases env.hook with _ | hf <;> rfl

/-- With no registered hook or single-step off, the dispatch never
touches the hook-invocation counter. -/
lemma dispatch_hookOff_calls (fold : Bool) (env : Env) (st : VMState)
    (hOff : env.hook = none ∨ env.singleStep = false) :
    (stepSt (dispatch fold env st)).hookCalls = st.hookCalls := by
  unfold dispatch
  rcases hI : decode (env.code.getD st.ip ' ') with _ | _ | _ | _ | _ | _ | _ | _ | _ <;>
    dsimp only <;> repeat' split
  all_goals first | rfl | simp_all [stepSt]

/-- The dispatch never decreases the hook-invocation counter. -/
lemma dispatch_calls_mono (fold : Bool) (env : Env) (st : VMState) :
    st.hookCalls ≤ (stepSt (dispatch fold env st)).hookCalls := by
  unfold dispatch
  rcases hI : decode (env.code.getD st.ip ' ') with _ | _ | _ | _ | _ | _ | _ | _ | _ <;>
    dsimp only <;> repeat' split
  all_goals simp [stepSt]

/-- With no registered hook or single-step off, no iteration of the
dispatch loop ever invokes the hook. -/
lemma run_hookOff_calls (fold : Bool) (env : Env)
    (hOff : env.hook = none ∨ env.singleStep = false) :
    ∀ fuel st, (resSt (run fold env fuel st)).hookCalls = st.hookCalls := by
  intro fuel
  induction fuel with
  | zero => intro st; rfl
  | succ n ih =>
    intro st
    unfold run
    split
    · rcases hS : stepIter fold env st with s1 | ⟨c1, s1⟩ <;> dsimp only
      · have h1 : s1.hookCalls = st.hookCalls := by
          have := dispatch_hookOff_calls fold env st hOff
          rw [← stepIter_hookOff fold env st hOff, hS] at this
          exact this
        rw [ih s1, h1]
      · have := dispatch_hookOff_calls fold env st hOff
        rw [← stepIter_hookOff fold env st hOff, hS] at this
        exact this
    · rfl

/-! ### C7: the debug-hook contract -/

/-- C7: (1) when no hook is registered or single-step mode is off
(even with a hook registered), a whole run never invokes the hook;
(2) when both are on, every loop iteration invokes the hook at least
once before dispatching; (3) a true return value from the
before-instruction invocation immediately terminates the iteration
with the debug-halt code; (4) end to end, a hook that halts on its
very first invocation over a non-empty well-formed program makes
`bfvm_run` return the debug-halt code with zero output bytes written
and exactly one hook invocation. -/
theorem C7_debug_hook_contract :
    (∀ (fold : Bool) (env : Env) (fuel : Nat) (st : VMState),
      env.hook = none ∨ env.singleStep = false →
      (resSt (run fold env fuel st)).hookCalls = st.hookCalls) ∧
    (∀ (fold : Bool) (env : Env) (st : VMState) (h : Nat → Nat → Nat → Bool),
      env.hook = some h → env.singleStep = true →
      st.hookCalls + 1 ≤ (stepSt (stepIter fold env st)).hookCalls) ∧
    (∀ (fold : Bool) (env : Env) (st : VMState) (h : Nat → Nat → Nat → Bool),
      env.hook = some h → env.singleStep = true → h st.ip st.dp (cellOf st) = true →
      stepIter fold env st = .halt BF_ERR_DEBUG_HALT_REQUESTED
        { st with hookCalls := st.hookCalls + 1 }) ∧
    (∀ (code : List Char) (input : Option (List Nat)) (outMax memSize : Nat)
       (h : Nat → Nat → Nat → Bool) (tbl : List (Option Nat)) (fuel : Nat),
      code ≠ [] → build_jump_table code = .ok tbl → h 0 0 0 = true → memSize ≠ 0 →
      bfvm_run (some code) input true outMax memSize (some h) true (fuel + 1)
        = .done BF_ERR_DEBUG_HALT_REQUESTED
            { memory := List.replicate memSize 0, dp := 0, ip := 0, inPtr := 0,
              output := [], hookCalls := 1 }) := by
  refine ⟨fun fold env fuel st hOff => run_hookOff_calls fold env hOff fuel st, ?_, ?_, ?_⟩
  · intro fold env st h hk hs
    unfold stepIter
    rw [hk, hs]
    dsimp only
    split
    · simp [stepSt]
    · calc st.hookCalls + 1
          = ({ st with hookCalls := st.hookCalls + 1 } : VMState).hookCalls := rfl
        _ ≤ _ := dispatch_calls_mono fold env _
  · intro fold env st h hk hs hh
    unfold stepIter
    rw [hk, hs]
    dsimp only
    rw [if_pos hh]
  · intro code input outMax memSize h tbl fuel hne hb hh hms
    unfold bfvm_run
    rw [if_neg (by simp [hms])]
    simp only [Option.getD_some, hb]
    unfold run
    rw [if_pos (by simpa using List.length_pos.mpr hne)]
    have hcell : cellOf (initState memSize) = 0 := by
      unfold cellOf initState
      dsimp only
      simp [List.getD_eq_getElem?_getD, List.getElem?_replicate]
      split <;> rfl
    unfold stepIter
    dsimp only
    rw [show (initState memSize).ip = 0 from rfl, show (initState memSize).dp = 0 from rfl,
      hcell, hh]
    rfl

/-- Witness for C7, applying part (4): a hook that halts immediately
on the one-instruction program `+`. -/
theorem C7_witness :
    bfvm_run (some ['+']) none true 0 1 (some (fun _ _ _ => true)) true 1
      = .done BF_ERR_DEBUG_HALT_REQUESTED
          { memory := List.replicate 1 0, dp := 0, ip := 0, inPtr := 0,
            output := [], hookCalls := 1 } :=
  C7_debug_hook_contract.2.2.2 ['+'] none 0 1 (fun _ _ _ => true) [none] 0
    (by decide) (by decide) rfl (by decide)

/-! ### C8: the `,` instruction and end-of-input convention -/

/-- Two environments that agree except that one has a null input
buffer and the other an empty one dispatch identically: `,` stores
`0` either way, and no other instruction reads the input. -/
lemma dispatch_input_empty (fold : Bool) (st : VMState) (env1 env2 : Env)
    (hc : env1.code = env2.code) (hj : env1.jump = env2.jump)
    (ho : env1.outMax = env2.outMax) (hm : env1.memSize = env2.memSize)
    (hh : env1.hook = env2.hook) (hs : env1.singleStep = env2.singleStep)
    (h1 : env1.input = none) (h2 : env2.input = some []) :
    dispatch fold env1 st = dispatch fold env2 st := by
  unfold dispatch foldCount
  rw [hc, hj, ho, hm, hh, hs, h1, h2]
  rcases hI : decode (env2.code.getD st.ip ' ') with _ | _ | _ | _ | _ | _ | _ | _ | _ <;>
    rfl

lemma stepIter_input_empty (fold : Bool) (st : VMState) (env1 env2 : Env)
    (hc : env1.code = env2.code) (hj : env1.jump = env2.jump)
    (ho : env1.outMax = env2.outMax) (hm : env1.memSize = env2.memSize)
    (hh : env1.hook = env2.hook) (hs : env1.singleStep = env2.singleStep)
    (h1 : env1.input = none) (h2 : env2.input = some []) :
    stepIter fold env1 st = stepIter fold env2 st := by
  have hd : ∀ s, dispatch fold env1 s = dispatch fold env2 s := fun s =>
    dispatch_input_empty fold s env1 env2 hc hj ho hm hh hs h1 h2
  unfold stepIter
  rw [hh, hs]
  rcases env2.hook with _ | hf
  · exact hd st
  · cases env2.singleStep
    · exact hd st
    · dsimp only
      split
      · rfl
      · exact hd _

lemma run_input_empty (fold : Bool) (env1 env2 : Env)
    (hc : env1.code = env2.code) (hj : env1.jump = env2.jump)
    (ho : env1.outMax = env2.outMax) (hm : env1.memSize = env2.memSize)
    (hh : env1.hook = env2.hook) (hs : env1.singleStep = env2.singleStep)
    (h1 : env1.input = none) (h2 : env2.input = some []) :
    ∀ fuel st, run fold env1 fuel st = run fold env2 fuel st := by
  intro fuel
  induction fuel with
  | zero => intro st; rfl
  | succ n ih =>
    intro st
    unfold run
    rw [hc, ho]
    split
    · rw [stepIter_input_empty fold st env1 env2 hc hj ho hm hh hs h1 h2]
      rcases stepIter fold env2 st with s1 | ⟨c1, s1⟩
      · exact ih s1
      · rfl
    · rfl

/-- C8: `,` with input remaining stores `input[in_ptr]` into
`tape[dp]` and advances `in_ptr`; with input exhausted it stores `0`
without advancing; a null input buffer behaves exactly as an empty
one; none of this is an error, and no run ever returns the reserved
input-end-of-data code. -/
theorem C8_comma_semantics :
    (∀ (fold : Bool) (env : Env) (st : VMState) (buf : List Nat),
      env.code.getD st.ip ' ' = ',' → env.input = some buf → st.inPtr < buf.length →
      dispatch fold env st = .cont { st with
        memory := st.memory.set st.dp (buf.getD st.inPtr 0 % 256),
        inPtr := st.inPtr + 1, ip := st.ip + 1 }) ∧
    (∀ (fold : Bool) (env : Env) (st : VMState) (buf : List Nat),
      env.code.getD st.ip ' ' = ',' → env.input = some buf → ¬ st.inPtr < buf.length →
      dispatch fold env st = .cont { st with
        memory := st.memory.set st.dp 0, ip := st.ip + 1 }) ∧
    (∀ (fold : Bool) (env : Env) (st : VMState),
      env.code.getD st.ip ' ' = ',' → env.input = none →
      dispatch fold env st = .cont { st with
        memory := st.memory.set st.dp 0, ip := st.ip + 1 }) ∧
    (∀ (fold : Bool) (env : Env) (fuel : Nat) (st : VMState),
      run fold { env with input := none } fuel st
        = run fold { env with input := some [] } fuel st) ∧
    (∀ (prog : Option (List Char)) (input : Option (List Nat)) (outPresent : Bool)
       (outMax memSize : Nat) (hook : Option (Nat → Nat → Nat → Bool))
       (singleStep : Bool) (fuel : Nat) (s : VMState),
      bfvm_run prog input outPresent outMax memSize hook singleStep fuel
        ≠ .done BF_ERR_INPUT_EOF s) := by
  refine ⟨?_, ?_, ?_, ?_, ?_⟩
  · intro fold env st buf hc hbuf hlt
    unfold dispatch
    rw [show decode (env.code.getD st.ip ' ') = .comma by rw [hc]; rfl]
    dsimp only
    rw [hbuf]
    dsimp only
    simp [hlt]
  · intro fold env st buf hc hbuf hlt
    unfold dispatch
    rw [show decode (env.code.getD st.ip ' ') = .comma by rw [hc]; rfl]
    dsimp only
    rw [hbuf]
    dsimp only
    simp [hlt]
  · intro fold env st hc hbuf
    unfold dispatch
    rw [show decode (env.code.getD st.ip ' ') = .comma by rw [hc]; rfl]
    dsimp only
    rw [hbuf]
  · intro fold env fuel st
    exact run_input_empty fold { env with input := none } { env with input := some [] }
      rfl rfl rfl rfl rfl rfl rfl rfl fuel st
  · intro prog input outPresent outMax memSize hook singleStep fuel s h
    have := bfvm_run_codes _ _ _ _ _ _ _ _ _ _ h
    revert this
    decide

/-! ### Bracket-balance bookkeeping -/

lemma bsum_nil : bsum [] = 0 := rfl

lemma bsum_cons (c : Char) (l : List Char) : bsum (c :: l) = bval c + bsum l := by
  simp [bsum]

lemma bsum_append (a b : List Char) : bsum (a ++ b) = bsum a + bsum b := by
  simp [bsum]

lemma bval_open : bval '[' = 1 := by decide

lemma bval_close : bval ']' = -1 := by decide

lemma bval_other (c : Char) (h1 : c ≠ '[') (h2 : c ≠ ']') : bval c = 0 := by
  simp [bval, h1, h2]

lemma balanced_nil : Balanced [] := by
  constructor
  · rfl
  · intro n; simp [bsum]

lemma Balanced.app (a b : List Char) (ha : Balanced a) (hb : Balanced b) :
    Balanced (a ++ b) := by
  constructor
  · rw [bsum_append, ha.1, hb.1]; rfl
  · intro n
    rcases le_or_lt n a.length with h | h
    · rw [List.take_append_of_le_length h]
      exact ha.2 n
    · rw [List.take_append_eq_append_take, List.take_of_length_le (le_of_lt h),
        bsum_append, ha.1]
      simpa using hb.2 (n - a.length)

lemma balanced_single (c : Char) (h : bval c = 0) : Balanced [c] := by
  constructor
  · rw [bsum_cons, bsum_nil, h]; rfl
  · intro n
    cases n with
    | zero => simp [bsum]
    | succ k =>
      rw [List.take_succ_cons, List.take_nil, bsum_cons, bsum_nil, h]; rfl

lemma Balanced.wrap (m : List Char) (hm : Balanced m) :
    Balanced ('[' :: (m ++ [']'])) := by
  constructor
  · rw [bsum_cons, bsum_append, hm.1, bval_open]
    simp [bsum, bval_close]
  · intro n
    cases n with
    | zero => simp [bsum]
    | succ k =>
      rw [List.take_succ_cons, bsum_cons, bval_open]
      rcases le_or_lt k m.length with h | h
      · rw [List.take_append_of_le_length h]
        have := hm.2 k
        omega
      · rw [List.take_append_eq_append_take, List.take_of_length_le (le_of_lt h),
          bsum_append, hm.1,
          List.take_of_length_le (by simp only [List.length_cons, List.length_nil]; omega),
          bsum_cons, bsum_nil, bval_close]
        omega

/-! ### Slice algebra -/

lemma slice_self (code : List Char) (a : Nat) : slice code a a = [] := by
  simp [slice]

lemma slice_snoc (code : List Char) (a i : Nat) (c : Char)
    (hai : a ≤ i) (hc : code[i]? = some c) :
    slice code a (i + 1) = slice code a i ++ [c] := by
  unfold slice
  rw [show i + 1 - a = (i - a) + 1 by omega, List.take_succ, List.getElem?_drop,
    show a + (i - a) = i by omega, hc]
  rfl

lemma slice_append (code : List Char) (a b c : Nat) (hab : a ≤ b) (hbc : b ≤ c) :
    slice code a b ++ slice code b c = slice code a c := by
  unfold slice
  rw [show code.drop b = (code.drop a).drop (b - a) by
        rw [List.drop_drop]; congr 1; omega,
    ← List.take_add]
  congr 1
  omega

lemma slice_take (code : List Char) (a b c : Nat) (hab : a ≤ b) (hbc : b ≤ c) :
    (slice code a c).take (b - a) = slice code a b := by
  unfold slice
  rw [List.take_take]
  congr 1
  omega

lemma slice_cons (code : List Char) (o b : Nat) (c : Char)
    (hc : code[o]? = some c) (hob : o < b) :
    slice code o b = c :: slice code (o + 1) b := by
  have ho : o < code.length := by
    by_contra h
    rw [List.getElem?_eq_none (by omega)] at hc
    exact Option.noConfusion hc
  unfold slice
  rw [List.drop_eq_getElem_cons ho, show b - o = (b - (o + 1)) + 1 by omega,
    List.take_succ_cons]
  have : code[o] = c := by
    have := List.getElem?_eq_getElem ho
    rw [hc] at this
    exact (Option.some_inj.mp this).symm
  rw [this]

/-- A matching close bracket for a given open bracket is unique. -/
lemma Matches.unique (code : List Char) (p q q' : Nat)
    (h1 : Matches code p q) (h2 : Matches code p q') : q = q' := by
  by_contra hne
  -- by symmetry assume q < q'
  wlog hlt : q < q' generalizing q q'
  · exact this q' q h2 h1 (fun h => hne h.symm) (by omega)
  have hq1 : q + 1 ≤ q' := hlt
  have hpfx := h2.2.2.2.2 (q + 1 - (p + 1))
  rw [slice_take code (p + 1) (q + 1) q' (by have := h1.1; omega) hq1,
    slice_snoc code (p + 1) q ']' h1.1 h1.2.2.1, bsum_append,
    h1.2.2.2.1, bsum_cons, bsum_nil, bval_close] at hpfx
  omega

/-! ### Jump-table lookups -/

lemma tblGet_eq (tbl : List (Option Nat)) (p : Nat) : tblGet tbl p = tbl[p]?.getD none :=
  List.getD_eq_getElem?_getD tbl p none

lemma tblGet_set_self (tbl : List (Option Nat)) (p : Nat) (v : Option Nat)
    (h : p < tbl.length) : tblGet (tbl.set p v) p = v := by
  rw [tblGet_eq, List.getElem?_set_eq_of_lt v h]
  rfl

lemma tblGet_set_ne (tbl : List (Option Nat)) (p r : Nat) (v : Option Nat)
    (h : p ≠ r) : tblGet (tbl.set p v) r = tblGet tbl r := by
  rw [tblGet_eq, tblGet_eq, List.getElem?_set_ne h]

lemma tblGet_replicate (n p : Nat) : tblGet (List.replicate n none) p = none := by
  rw [tblGet_eq, List.getElem?_replicate]
  split <;> rfl

lemma lt_len_of_getElem? {α : Type} (l : List α) (i : Nat) (a : α)
    (h : l[i]? = some a) : i < l.length := by
  by_contra hn
  rw [List.getElem?_eq_none (by omega)] at h
  exact Option.noConfusion h

lemma getElem?_of_drop_cons (code : List Char) (i : Nat) (c : Char) (rest : List Char)
    (h : code.drop i = c :: rest) : code[i]? = some c := by
  have h0 : (code.drop i)[0]? = some c := by rw [h]; simp
  rw [List.getElem?_drop] at h0
  simpa using h0

lemma drop_cons_succ (code : List Char) (i : Nat) (c : Char) (rest : List Char)
    (h : code.drop i = c :: rest) : code.drop (i + 1) = rest := by
  have h1 := List.drop_drop 1 i code
  rw [h] at h1
  simpa using h1.symm

/-! ### Maintenance of the builder invariant -/

lemma TblInv.push {code : List Char} {i : Nat} {stack : List Nat}
    {tbl : List (Option Nat)} (inv : TblInv code i stack tbl)
    (hc : code[i]? = some '[') : TblInv code (i + 1) (i :: stack) tbl := by
  refine ⟨inv.len, ?_, ?_, ?_, inv.pairs, ?_, ?_, ?_⟩
  · intro o ho
    rcases List.mem_cons.mp ho with h | h
    · omega
    · have := inv.stackLt o h; omega
  · intro o ho
    rcases List.mem_cons.mp ho with h | h
    · exact h ▸ hc
    · exact inv.stackOpen o h
  · exact List.Pairwise.cons (fun b hb => inv.stackLt b hb) inv.stackSorted
  · intro p q hpq
    have hd := inv.dom p q hpq
    refine ⟨by omega, ?_⟩
    intro hmem
    rcases List.mem_cons.mp hmem with h | h
    · exact absurd hd.1 (by omega)
    · exact hd.2 h
  · intro p hp hbr
    rcases (by omega : p < i ∨ p = i) with h | h
    · rcases inv.cover p h hbr with hm | hn
      · exact Or.inl (List.mem_cons_of_mem _ hm)
      · exact Or.inr hn
    · subst h
      exact Or.inl (List.mem_cons_self _ _)
  · exact ⟨by rw [slice_self]; exact balanced_nil, inv.seg⟩

lemma TblInv.skip {code : List Char} {i : Nat} {stack : List Nat}
    {tbl : List (Option Nat)} {c : Char} (inv : TblInv code i stack tbl)
    (hc : code[i]? = some c) (h1 : c ≠ '[') (h2 : c ≠ ']') :
    TblInv code (i + 1) stack tbl := by
  refine ⟨inv.len, ?_, inv.stackOpen, inv.stackSorted, inv.pairs, ?_, ?_, ?_⟩
  · intro o ho; have := inv.stackLt o ho; omega
  · intro p q h; have := inv.dom p q h; exact ⟨by omega, this.2⟩
  · intro p hp hbr
    rcases (by omega : p < i ∨ p = i) with h | h
    · exact inv.cover p h hbr
    · subst h
      exfalso
      rcases hbr with hb | hb <;> rw [hc] at hb <;> injection hb with hb'
      · exact h1 hb'
      · exact h2 hb'
  · cases stack with
    | nil => trivial
    | cons o s =>
      obtain ⟨hs1, hs2⟩ := inv.seg
      have hoi : o < i := inv.stackLt o (List.mem_cons_self o s)
      refine ⟨?_, hs2⟩
      rw [slice_snoc code (o + 1) i c (by omega) hc]
      exact Balanced.app _ _ hs1 (balanced_single c (bval_other c h1 h2))

lemma TblInv.pop {code : List Char} {i o : Nat} {s : List Nat}
    {tbl : List (Option Nat)} (inv : TblInv code i (o :: s) tbl)
    (hc : code[i]? = some ']') :
    TblInv code (i + 1) s ((tbl.set o (some i)).set i (some o)) := by
  have hoi : o < i := inv.stackLt o (List.mem_cons_self o s)
  have hoo : code[o]? = some '[' := inv.stackOpen o (List.mem_cons_self o s)
  have hil : i < code.length := lt_len_of_getElem? code i ']' hc
  have holt : o < tbl.length := by rw [inv.len]; omega
  have hilt : i < tbl.length := by rw [inv.len]; omega
  have hne : o ≠ i := by omega
  have hgetO : tblGet tbl o = none := by
    rcases hO : tblGet tbl o with _ | q
    · rfl
    · exact absurd (List.mem_cons_self o s) (inv.dom o q hO).2
  have hgetI : tblGet tbl i = none := by
    rcases hI : tblGet tbl i with _ | q
    · rfl
    · have := (inv.dom i q hI).1; omega
  have hgO : tblGet ((tbl.set o (some i)).set i (some o)) o = some i := by
    rw [tblGet_set_ne _ i o _ (Ne.symm hne), tblGet_set_self _ o _ holt]
  have hgI : tblGet ((tbl.set o (some i)).set i (some o)) i = some o := by
    rw [tblGet_set_self _ i _ (by simpa using hilt)]
  have hgOther : ∀ p, p ≠ o → p ≠ i →
      tblGet ((tbl.set o (some i)).set i (some o)) p = tblGet tbl p := by
    intro p hpo hpi
    rw [tblGet_set_ne _ i p _ (fun h => hpi h.symm),
      tblGet_set_ne _ o p _ (fun h => hpo h.symm)]
  obtain ⟨hsegTop, hsegTail⟩ := inv.seg
  have hM : Matches code o i := ⟨hoi, hoo, hc, hsegTop⟩
  have hall : ∀ b ∈ s, b < o := (List.pairwise_cons.mp inv.stackSorted).1
  refine ⟨by simpa using inv.len, ?_, ?_, ?_, ?_, ?_, ?_, ?_⟩
  · intro b hb
    have := inv.stackLt b (List.mem_cons_of_mem _ hb); omega
  · intro b hb
    exact inv.stackOpen b (List.mem_cons_of_mem _ hb)
  · exact (List.pairwise_cons.mp inv.stackSorted).2
  · intro p q hpq
    by_cases hpi : p = i
    · subst hpi
      rw [hgI] at hpq
      injection hpq with hq
      subst hq
      exact ⟨hgO, Or.inr hM⟩
    · by_cases hpo : p = o
      · subst hpo
        rw [hgO] at hpq
        injection hpq with hq
        subst hq
        exact ⟨hgI, Or.inl hM⟩
      · rw [hgOther p hpo hpi] at hpq
        have old := inv.pairs p q hpq
        have hqo : q ≠ o := by
          intro h; subst h
          exact Option.noConfusion (hgetO ▸ old.1)
        have hqi : q ≠ i := by
          intro h; subst h
          exact Option.noConfusion (hgetI ▸ old.1)
        exact ⟨by rw [hgOther q hqo hqi]; exact old.1, old.2⟩
  · intro p q hpq
    by_cases hpi : p = i
    · subst hpi
      refine ⟨by omega, ?_⟩
      intro hmem
      have := inv.stackLt p (List.mem_cons_of_mem _ hmem); omega
    · by_cases hpo : p = o
      · subst hpo
        refine ⟨by omega, ?_⟩
        intro hmem
        have := hall p hmem; omega
      · rw [hgOther p hpo hpi] at hpq
        have := inv.dom p q hpq
        exact ⟨by omega, fun hm => this.2 (List.mem_cons_of_mem _ hm)⟩
  · intro p hp hbr
    rcases (by omega : p < i ∨ p = i) with h | h
    · rcases inv.cover p h hbr with hm | hn
      · rcases List.mem_cons.mp hm with h' | h'
        · subst h'
          exact Or.inr (by rw [hgO]; simp)
        · exact Or.inl h'
      · have hpo : p ≠ o := fun hh => hn (hh ▸ hgetO)
        have hpi : p ≠ i := by omega
        exact Or.inr (by rw [hgOther p hpo hpi]; exact hn)
    · subst h
      exact Or.inr (by rw [hgI]; simp)
  · cases s with
    | nil => trivial
    | cons o2 s2 =>
      obtain ⟨ht1, ht2⟩ := hsegTail
      have ho2o : o2 < o := hall o2 (List.mem_cons_self o2 s2)
      refine ⟨?_, ht2⟩
      rw [show (i + 1) = i + 1 from rfl,
        ← slice_append code (o2 + 1) o (i + 1) (by omega) (by omega),
        slice_cons code o (i + 1) '[' hoo (by omega),
        slice_snoc code (o + 1) i ']' (by omega) hc]
      exact Balanced.app _ _ ht1 (Balanced.wrap _ hsegTop)

lemma TblInv.init (code : List Char) :
    TblInv code 0 [] (List.replicate code.length none) := by
  refine ⟨by simp, by simp, by simp, List.Pairwise.nil, ?_, ?_, ?_, trivial⟩
  · intro p q h
    rw [tblGet_replicate] at h
    exact Option.noConfusion h
  · intro p q h
    rw [tblGet_replicate] at h
    exact Option.noConfusion h
  · intro p hp
    omega

/-- Running the builder scan to success from any invariant state
yields an involutive table of genuinely matching pairs covering every
bracket position. -/
lemma buildAux_inv (code : List Char) (rest : List Char) :
    ∀ i stack tbl, code.drop i = rest → TblInv code i stack tbl →
    ∀ t, buildAux rest i stack tbl = .ok t →
      (∀ p q, tblGet t p = some q →
        tblGet t q = some p ∧ (Matches code p q ∨ Matches code q p)) ∧
      (∀ p, (code[p]? = some '[' ∨ code[p]? = some ']') → tblGet t p ≠ none) := by
  induction rest with
  | nil =>
    intro i stack tbl hdrop inv t hok
    unfold buildAux at hok
    split at hok
    case isTrue hst =>
      injection hok with h1
      subst h1
      refine ⟨inv.pairs, ?_⟩
      intro p hp
      have hlen : code.length ≤ i := List.drop_eq_nil_iff.mp hdrop
      have hpl : p < code.length := by
        rcases hp with h | h <;> exact lt_len_of_getElem? _ _ _ h
      rcases inv.cover p (by omega) hp with hmem | hnn
      · rw [List.isEmpty_iff] at hst
        subst hst
        exact absurd hmem (List.not_mem_nil p)
      · exact hnn
    case isFalse => injection hok
  | cons c rest ih =>
    intro i stack tbl hdrop inv t hok
    have hci : code[i]? = some c := getElem?_of_drop_cons code i c rest hdrop
    have hdropS : code.drop (i + 1) = rest := drop_cons_succ code i c rest hdrop
    unfold buildAux at hok
    split at hok
    case isTrue hcbr =>
      subst hcbr
      split at hok
      · injection hok
      · exact ih (i + 1) (i :: stack) tbl hdropS (inv.push hci) t hok
    case isFalse hcop =>
      split at hok
      case isTrue hccl =>
        subst hccl
        cases stack with
        | nil =>
          dsimp only at hok
          injection hok
        | cons o s =>
          dsimp only at hok
          exact ih (i + 1) s _ hdropS (inv.pop hci) t hok
      case isFalse hccl =>
        exact ih (i + 1) stack tbl hdropS (inv.skip hci hcop hccl) t hok

/-- A successful `build_jump_table` yields an involutive table of
matching pairs that covers every bracket position. -/
lemma build_ok_pairs (code : List Char) (tbl : List (Option Nat))
    (hb : build_jump_table code = .ok tbl) :
    (∀ p q, tblGet tbl p = some q →
      tblGet tbl q = some p ∧ (Matches code p q ∨ Matches code q p)) ∧
    (∀ p, (code[p]? = some '[' ∨ code[p]? = some ']') → tblGet tbl p ≠ none) :=
  buildAux_inv code code 0 [] _ rfl (TblInv.init code) tbl hb

/-! ### C3: involutivity of the jump table -/

/-- C3: on every program whose jump-table build succeeds, the table is
involutive on bracket positions — `jump[jump[p]] = p` — and `jump[p]`
holds the matching bracket of the opposite kind (`Matches` states
genuine matching: the open precedes the close and the segment strictly
between them is balanced). -/
theorem C3_jump_table_involutive (code : List Char) (tbl : List (Option Nat))
    (hb : build_jump_table code = .ok tbl) (p : Nat)
    (hbr : code[p]? = some '[' ∨ code[p]? = some ']') :
    ∃ q, tblGet tbl p = some q ∧ tblGet tbl q = some p ∧
      ((code[p]? = some '[' ∧ code[q]? = some ']' ∧ Matches code p q) ∨
       (code[p]? = some ']' ∧ code[q]? = some '[' ∧ Matches code q p)) := by
  obtain ⟨pairs, cover⟩ := build_ok_pairs code tbl hb
  rcases hnn : tblGet tbl p with _ | q
  · exact absurd hnn (cover p hbr)
  · refine ⟨q, rfl, (pairs p q hnn).1, ?_⟩
    rcases (pairs p q hnn).2 with hM | hM
    · exact Or.inl ⟨hM.2.1, hM.2.2.1, hM⟩
    · exact Or.inr ⟨hM.2.2.1, hM.2.1, hM⟩

/-- Witness for C3 on the program `[]`. -/
theorem C3_witness :
    tblGet [some 1, some 0] 0 = some 1 ∧ tblGet [some 1, some 0] 1 = some 0 := by
  obtain ⟨q, h1, h2, -⟩ := C3_jump_table_involutive ['[', ']'] [some 1, some 0]
    (by decide) 0 (Or.inl (by decide))
  have hq : q = 1 :=
    (Option.some_inj.mp ((by decide : tblGet [some 1, some 0] 0 = some 1).symm.trans h1)).symm
  subst hq
  exact ⟨h1, h2⟩

/-! ### C4: the three builder error conditions -/

lemma buildAux_scanSpec (rest : List Char) :
    ∀ i stack tbl, errOf (buildAux rest i stack tbl) = scanSpec rest stack.length := by
  induction rest with
  | nil =>
    intro i stack tbl
    unfold buildAux scanSpec
    by_cases h : stack.isEmpty
    · rw [if_pos h, if_pos (by simpa [List.isEmpty_iff_length_eq_zero] using h)]
      rfl
    · rw [if_neg h, if_neg (by simpa [List.isEmpty_iff_length_eq_zero] using h)]
      rfl
  | cons c rest ih =>
    intro i stack tbl
    unfold buildAux scanSpec
    by_cases hc1 : c = '['
    · simp only [if_pos hc1]
      by_cases hc2 : MAX_BRACKET_DEPTH ≤ stack.length
      · rw [if_pos hc2, if_pos hc2]; rfl
      · rw [if_neg hc2, if_neg hc2]
        simpa using ih (i + 1) (i :: stack) tbl
    · by_cases hc2 : c = ']'
      · simp only [if_neg hc1, if_pos hc2]
        cases stack with
        | nil => rfl
        | cons o s =>
          dsimp only
          rw [if_neg (by simp)]
          simpa using ih (i + 1) s ((tbl.set o (some i)).set i (some o))
      · simp only [if_neg hc1, if_neg hc2]
        exact ih (i + 1) stack tbl

/-- C4: the builder scan fails with exactly the three error codes of
the specification scan `scanSpec` under exactly its conditions
(stack-overflow on pushing past the 4096-frame capacity,
unmatched-close on a `]` with empty stack, unmatched-open on a
non-empty stack after the scan; non-bracket characters ignored), and
on success every close bracket has been recorded bidirectionally with
its popped open bracket. -/
theorem C4_build_error_conditions :
    (∀ code : List Char, errOf (build_jump_table code) = scanSpec code 0) ∧
    (∀ (code : List Char) (tbl : List (Option Nat)), build_jump_table code = .ok tbl →
      ∀ q, code[q]? = some ']' →
        ∃ o, tblGet tbl q = some o ∧ tblGet tbl o = some q ∧
          code[o]? = some '[' ∧ o < q) := by
  constructor
  · intro code
    have h := buildAux_scanSpec code 0 [] (List.replicate code.length none)
    simpa [build_jump_table] using h
  · intro code tbl hb q hq
    obtain ⟨pairs, cover⟩ := build_ok_pairs code tbl hb
    rcases hnn : tblGet tbl q with _ | o
    · exact absurd hnn (cover q (Or.inr hq))
    · refine ⟨o, rfl, (pairs q o hnn).1, ?_⟩
      rcases (pairs q o hnn).2 with hM | hM
      · exact absurd (hq.symm.trans hM.2.1) (by decide)
      · exact ⟨hM.2.1, hM.1⟩

/-- Witness for C4: the error equation on `]` and the recorded pair
on `[]`. -/
theorem C4_witness :
    errOf (build_jump_table [']']) = scanSpec [']'] 0 ∧
    tblGet [some 1, some 0] 1 = some 0 := by
  refine ⟨C4_build_error_conditions.1 [']'], ?_⟩
  obtain ⟨o, h1, h2, h3, h4⟩ := C4_build_error_conditions.2 ['[', ']'] [some 1, some 0]
    (by decide) 1 (by decide)
  have ho : o = 0 := by omega
  exact ho ▸ h1

/-! ### C2: the clear-cell idiom (corrected) -/

/-- For the idiom pattern `[c]` with `c` neither bracket, the jump
table sends the `[` to the `]` two positions later. -/
lemma jump_of_idiom (code : List Char) (tbl : List (Option Nat))
    (hb : build_jump_table code = .ok tbl) (ip : Nat) (c : Char)
    (h0 : code[ip]? = some '[') (h1 : code[ip + 1]? = some c)
    (hc1 : c ≠ '[') (hc2 : c ≠ ']') (h2 : code[ip + 2]? = some ']') :
    tblGet tbl ip = some (ip + 2) := by
  obtain ⟨pairs, cover⟩ := build_ok_pairs code tbl hb
  rcases hnn : tblGet tbl ip with _ | q
  · exact absurd hnn (cover ip (Or.inl h0))
  · have hM : Matches code ip q := by
      rcases (pairs ip q hnn).2 with h | h
      · exact h
      · exact absurd (h0.symm.trans h.2.2.1) (by decide)
    have hM2 : Matches code ip (ip + 2) := by
      refine ⟨by omega, h0, h2, ?_⟩
      rw [slice_cons code (ip + 1) (ip + 2) c h1 (by omega), slice_self]
      exact balanced_single c (bval_other c hc1 hc2)
    exact congrArg some (Matches.unique code ip q (ip + 2) hM hM2)

lemma getElem?_of_getD (l : List Char) (p : Nat) (hp : p < l.length) (c : Char)
    (h : l.getD p ' ' = c) : l[p]? = some c := by
  rw [List.getD_eq_getElem?_getD, List.getElem?_eq_getElem hp] at h
  rw [List.getElem?_eq_getElem hp]
  exact congrArg some h

lemma cellOf_set_zero (st : VMState) :
    (st.memory.set st.dp 0).getD st.dp 0 = 0 := by
  rcases lt_or_le st.dp st.memory.length with h | h
  · rw [List.getD_eq_getElem?_getD, List.getElem?_set_eq_of_lt _ (by simpa using h)]
    rfl
  · rw [List.set_eq_of_length_le h, List.getD_eq_getElem?_getD,
      List.getElem?_eq_none (by omega)]
    rfl

/-- C2 (amended): in a state whose instruction is `[` followed
exactly by `-`/`+` and `]`, the engine behaves as claimed only when
the current cell is NONZERO: it zeroes `tape[dp]`, advances `ip` by 2
(so the next instruction processed is at `ip + 3`), and — when a hook
is registered and single-step is on — invokes the hook once more at
`(ip + 2, dp, 0)`, halting with the debug-halt code if it returns
nonzero.  When the current cell is ZERO, the zero-cell jump branch
takes priority over the idiom: the net effect on tape and `ip` is the
same (the cell is already zero and `ip` likewise ends at `ip + 3`),
but the extra hook invocation does NOT occur. -/
theorem C2_clear_idiom (env : Env) (st : VMState)
    (hb : build_jump_table env.code = .ok env.jump)
    (hlen : st.ip + 2 < env.code.length)
    (h0 : env.code.getD st.ip ' ' = '[')
    (h1 : env.code.getD (st.ip + 1) ' ' = '-' ∨ env.code.getD (st.ip + 1) ' ' = '+')
    (h2 : env.code.getD (st.ip + 2) ' ' = ']') :
    (∀ fold, cellOf st ≠ 0 → (env.hook = none ∨ env.singleStep = false) →
      dispatch fold env st
        = .cont { st with memory := st.memory.set st.dp 0, ip := st.ip + 3 }) ∧
    (∀ fold h, cellOf st ≠ 0 → env.hook = some h → env.singleStep = true →
      (h (st.ip + 2) st.dp 0 = true →
        dispatch fold env st = .halt BF_ERR_DEBUG_HALT_REQUESTED
          { st with memory := st.memory.set st.dp 0, ip := st.ip + 2,
                    hookCalls := st.hookCalls + 1 }) ∧
      (h (st.ip + 2) st.dp 0 = false →
        dispatch fold env st = .cont
          { st with memory := st.memory.set st.dp 0, ip := st.ip + 3,
                    hookCalls := st.hookCalls + 1 })) ∧
    (cellOf st = 0 → ∀ fold,
      dispatch fold env st = .cont { st with ip := st.ip + 3 }) := by
  have hd : decode (env.code.getD st.ip ' ') = .lbrack := by rw [h0]; rfl
  have hcell0 : cellOf { st with memory := st.memory.set st.dp 0, ip := st.ip + 2 } = 0 := by
    unfold cellOf
    exact cellOf_set_zero st
  refine ⟨?_, ?_, ?_⟩
  · intro fold hcz hOff
    unfold dispatch
    rw [hd]
    dsimp only
    rw [if_neg hcz, if_pos ⟨hlen, h1, h2⟩]
    rcases hOff with h | h
    · rw [h]
    · rw [h]
      rcases env.hook with _ | hf <;> rfl
  · intro fold h hcz hk hs
    constructor <;> intro hret <;>
    · unfold dispatch
      rw [hd]
      dsimp only
      rw [if_neg hcz, if_pos ⟨hlen, h1, h2⟩, hk, hs]
      dsimp only
      rw [hcell0, hret]
      rfl
  · intro hcz fold
    unfold dispatch
    rw [hd]
    dsimp only
    rw [if_pos hcz]
    have h1e : env.code[st.ip + 1]? = some (env.code.getD (st.ip + 1) ' ') :=
      getElem?_of_getD env.code (st.ip + 1) (by omega) _ rfl
    have hjmp : tblGet env.jump st.ip = some (st.ip + 2) := by
      refine jump_of_idiom env.code env.jump hb st.ip (env.code.getD (st.ip + 1) ' ')
        (getElem?_of_getD env.code st.ip (by omega) '[' h0) h1e ?_ ?_
        (getElem?_of_getD env.code (st.ip + 2) (by omega) ']' h2)
      · rcases h1 with h | h <;> rw [h] <;> decide
      · rcases h1 with h | h <;> rw [h] <;> decide
    rw [hjmp]
    rfl

/-- Counterexample to C2 as stated: the claim requires the idiom to
fire "regardless of the current cell value", invoking the hook once
more at `ip + 2` and halting if it returns nonzero.  On the program
`[-]` with the cell at 0, single-step on, and a hook returning
nonzero exactly at `ip = 2`, the claim therefore predicts the
debug-halt code; the engine instead takes the zero-cell jump branch
(line 226 is tested before the idiom at line 231), never makes the
extra invocation (only the single pre-instruction call at `ip = 0`
occurs), and returns success `0`. -/
theorem C2_counterexample :
    bfvm_run (some ['[', '-', ']']) none true 0 1
        (some (fun ip _ _ => decide (ip = 2))) true 10
      = .done BF_SUCCESS { memory := [0], dp := 0, ip := 3, inPtr := 0,
                           output := [], hookCalls := 1 } ∧
    BF_SUCCESS ≠ BF_ERR_DEBUG_HALT_REQUESTED := by
  constructor
  · decide
  · decide

/-- Witness for C2 (amended): the nonzero-cell idiom firing and the
zero-cell jump branch on the program `[-]`. -/
theorem C2_witness :
    dispatch true
      { code := ['[', '-', ']'], jump := [some 2, none, some 0], input := none,
        outMax := 0, memSize := 1, hook := none, singleStep := false }
      { memory := [5], dp := 0, ip := 0, inPtr := 0, output := [], hookCalls := 0 }
      = .cont { memory := [0], dp := 0, ip := 3, inPtr := 0, output := [],
                hookCalls := 0 } ∧
    dispatch true
      { code := ['[', '-', ']'], jump := [some 2, none, some 0], input := none,
        outMax := 0, memSize := 1, hook := none, singleStep := false }
      (initState 1)
      = .cont { memory := [0], dp := 0, ip := 3, inPtr := 0, output := [],
                hookCalls := 0 } := by
  constructor
  · have h := (C2_clear_idiom
      { code := ['[', '-', ']'], jump := [some 2, none, some 0], input := none,
        outMax := 0, memSize := 1, hook := none, singleStep := false }
      { memory := [5], dp := 0, ip := 0, inPtr := 0, output := [], hookCalls := 0 }
      (by decide) (by decide) (by decide) (Or.inl (by decide)) (by decide)).1
      true (by decide) (Or.inl rfl)
    rw [h]
    decide
  · have h := (C2_clear_idiom
      { code := ['[', '-', ']'], jump := [some 2, none, some 0], input := none,
        outMax := 0, memSize := 1, hook := none, singleStep := false }
      (initState 1)
      (by decide) (by decide) (by decide) (Or.inl (by decide)) (by decide)).2.2
      (by decide) true
    rw [h]
    decide

/-! ### C6: the data-pointer invariant and the move bound checks -/

lemma dispatch_dp_lt (fold : Bool) (env : Env) (st s : VMState)
    (hdp : st.dp < env.memSize) (h : dispatch fold env st = .cont s) :
    s.dp < env.memSize := by
  unfold dispatch at h
  rcases hI : decode (env.code.getD st.ip ' ') with _ | _ | _ | _ | _ | _ | _ | _ | _ <;>
    rw [hI] at h <;> dsimp only at h <;> repeat' split at h
  all_goals first
    | (injection h with h'; subst h'; dsimp only; omega)
    | injection h

lemma stepIter_dp_lt (fold : Bool) (env : Env) (st s : VMState)
    (hdp : st.dp < env.memSize) (h : stepIter fold env st = .cont s) :
    s.dp < env.memSize := by
  unfold stepIter at h
  rcases hk : env.hook with _ | hf <;> rw [hk] at h
  · exact dispatch_dp_lt fold env st s hdp h
  · cases hs : env.singleStep <;> rw [hs] at h <;> dsimp only at h
    · exact dispatch_dp_lt fold env st s hdp h
    · split at h
      · injection h
      · exact dispatch_dp_lt fold env _ s (by simpa using hdp) h

lemma stepsTo_dp_lt (fold : Bool) (env : Env) (k : Nat) (st st' : VMState)
    (h : stepsTo fold env k st st') (hdp : st.dp < env.memSize) :
    st'.dp < env.memSize := by
  induction h with
  | zero => exact hdp
  | succ st s s' k hip hstep hrest ih => exact ih (stepIter_dp_lt fold env st s hdp hstep)

/-- C6: (1) every execution state reachable from the initial state of
a positive-capacity run keeps `0 ≤ dp < C` (`dp` is a `Nat`, so the
lower bound is inherent); (2) a folded move right of `n` cells fails
with out-of-bounds exactly when `dp + n ≥ C` (strict `≥`, reserving
the last index) and otherwise adds `n` to `dp`; (3) a folded move
left of `n` cells fails exactly when `dp < n` and otherwise subtracts
`n`; in both failing cases `dp` is left unchanged, and (4) any halted
iteration aborts the whole run with that code. -/
theorem C6_dp_invariant_and_move_bounds (env : Env) :
    (0 < env.memSize → ∀ k st', stepsTo true env k (initState env.memSize) st' →
      st'.dp < env.memSize) ∧
    (∀ st, env.code.getD st.ip ' ' = '>' →
      (env.memSize ≤ st.dp + runLenAux (env.code.drop st.ip) '>' →
        dispatch true env st = .halt BF_ERR_MEMORY_OUT_OF_BOUNDS st) ∧
      (st.dp + runLenAux (env.code.drop st.ip) '>' < env.memSize →
        dispatch true env st = .cont { st with
          dp := st.dp + runLenAux (env.code.drop st.ip) '>',
          ip := st.ip + runLenAux (env.code.drop st.ip) '>' })) ∧
    (∀ st, env.code.getD st.ip ' ' = '<' →
      (st.dp < runLenAux (env.code.drop st.ip) '<' →
        dispatch true env st = .halt BF_ERR_MEMORY_OUT_OF_BOUNDS st) ∧
      (runLenAux (env.code.drop st.ip) '<' ≤ st.dp →
        dispatch true env st = .cont { st with
          dp := st.dp - runLenAux (env.code.drop st.ip) '<',
          ip := st.ip + runLenAux (env.code.drop st.ip) '<' })) ∧
    (∀ (fold : Bool) (fuel : Nat) (st : VMState) (e : Int) (s : VMState),
      st.ip < env.code.length → stepIter fold env st = .halt e s →
      run fold env (fuel + 1) st = .done e s) := by
  refine ⟨?_, ?_, ?_, ?_⟩
  · intro hms k st' hsteps
    exact stepsTo_dp_lt true env k _ st' hsteps (by simpa [initState] using hms)
  · intro st hc
    have hd : decode (env.code.getD st.ip ' ') = .right := by rw [hc]; rfl
    have hfc : foldCount true env st = runLenAux (env.code.drop st.ip) '>' := by
      unfold foldCount
      rw [hc]
      rfl
    constructor
    · intro hbound
      unfold dispatch
      rw [hd]
      dsimp only
      rw [hfc, if_pos hbound]
    · intro hbound
      unfold dispatch
      rw [hd]
      dsimp only
      rw [hfc, if_neg (by omega)]
  · intro st hc
    have hd : decode (env.code.getD st.ip ' ') = .left := by rw [hc]; rfl
    have hfc : foldCount true env st = runLenAux (env.code.drop st.ip) '<' := by
      unfold foldCount
      rw [hc]
      rfl
    constructor
    · intro hbound
      unfold dispatch
      rw [hd]
      dsimp only
      rw [hfc, if_pos hbound]
    · intro hbound
      unfold dispatch
      rw [hd]
      dsimp only
      rw [hfc, if_neg (by omega)]
  · intro fold fuel st e s hip hstep
    unfold run
    rw [if_pos hip, hstep]

/-- Witness for C6: a folded run of five `>` on a 3-cell tape is
rejected whole (part 2), and the state `dp = 2` after two single
moves keeps the invariant (part 1). -/
theorem C6_witness :
    dispatch true
      { code := ['>', '>', '>', '>', '>'], jump := [none, none, none, none, none],
        input := none, outMax := 0, memSize := 3, hook := none, singleStep := false }
      (initState 3)
      = .halt BF_ERR_MEMORY_OUT_OF_BOUNDS (initState 3) :=
  ((C6_dp_invariant_and_move_bounds
    { code := ['>', '>', '>', '>', '>'], jump := [none, none, none, none, none],
      input := none, outMax := 0, memSize := 3, hook := none, singleStep := false }).2.1
    (initState 3) (by decide)).1 (by decide)

/-! ### C10: normal termination, the terminator byte and the count -/

lemma run_success_shape (fold : Bool) (env : Env) :
    ∀ fuel st e s, run fold env fuel st = .done e s → 0 ≤ e →
    ∃ w : List Nat, e = (w.length : Int) ∧
      ((w.length < env.outMax ∧ s.output = w ++ [0]) ∨
       (env.outMax ≤ w.length ∧ s.output = w)) := by
  intro fuel
  induction fuel with
  | zero => intro st e s h he; simp [run] at h
  | succ n ih =>
    intro st e s h he
    unfold run at h
    split at h
    · rcases hS : stepIter fold env st with s1 | ⟨c1, s1⟩ <;> rw [hS] at h <;>
        dsimp only at h
      · exact ih s1 e s h he
      · injection h with h1 h2
        subst h1
        exact absurd he (by have := (stepIter_halt_codes _ _ _ _ _ hS).2; omega)
    · injection h with h1 h2
      subst h1
      subst h2
      refine ⟨st.output, rfl, ?_⟩
      by_cases hroom : st.output.length < env.outMax
      · exact Or.inl ⟨hroom, by rw [if_pos hroom]⟩
      · exact Or.inr ⟨by omega, by rw [if_neg hroom]; simp⟩

/-- C10: when `ip` reaches the program length with no failure or
halt, the run reports as its success code exactly the number of bytes
written by `.`, and the output buffer holds those bytes followed by
one uncounted `0` terminator exactly when room remains
(`out_ptr < Lout_max`); concretely, the §8 program
`++++++++[>++++++++<-]>.` with tape capacity 2 returns success `1`
with output byte `64` (and with output capacity 2, the terminator
`0` appears after it, still with success `1`). -/
theorem C10_normal_termination :
    (∀ (fold : Bool) (env : Env) (fuel : Nat) (st : VMState) (e : Int) (s : VMState),
      run fold env fuel st = .done e s → 0 ≤ e →
      ∃ w : List Nat, e = (w.length : Int) ∧
        ((w.length < env.outMax ∧ s.output = w ++ [0]) ∨
         (env.outMax ≤ w.length ∧ s.output = w))) ∧
    (bfvm_run (some ['+', '+', '+', '+', '+', '+', '+', '+', '[', '>', '+', '+',
        '+', '+', '+', '+', '+', '+', '<', '-', ']', '>', '.'])
        none true 1 2 none false 500
      = .done 1 { memory := [0, 64], dp := 1, ip := 23, inPtr := 0,
                  output := [64], hookCalls := 0 }) ∧
    (bfvm_run (some ['+', '+', '+', '+', '+', '+', '+', '+', '[', '>', '+', '+',
        '+', '+', '+', '+', '+', '+', '<', '-', ']', '>', '.'])
        none true 2 2 none false 500
      = .done 1 { memory := [0, 64], dp := 1, ip := 23, inPtr := 0,
                  output := [64, 0], hookCalls := 0 }) := by
  refine ⟨run_success_shape, ?_, ?_⟩
  · decide
  · decide

/-- Witness for C10, applying the success-shape part to a concrete
two-`.` run whose buffer keeps one cell of room. -/
theorem C10_witness :
    ∃ w : List Nat, (2 : Int) = (w.length : Int) ∧
      ((w.length < 3 ∧ ([0, 0, 0] : List Nat) = w ++ [0]) ∨
       (3 ≤ w.length ∧ ([0, 0, 0] : List Nat) = w)) :=
  C10_normal_termination.1 true
    { code := ['.', '.'], jump := [none, none], input := none, outMax := 3,
      memSize := 1, hook := none, singleStep := false }
    10 (initState 1) 2
    { memory := [0], dp := 0, ip := 2, inPtr := 0, output := [0, 0, 0], hookCalls := 0 }
    (by decide) (by decide)

/-! ### C1: run-length facts -/

lemma runLenAux_le (l : List Char) (c : Char) : runLenAux l c ≤ l.length := by
  induction l with
  | nil => simp [runLenAux]
  | cons x xs ih =>
    unfold runLenAux
    split
    · simpa using ih
    · simp

lemma runLenAux_get (l : List Char) (c : Char) :
    ∀ j < runLenAux l c, l[j]? = some c := by
  induction l with
  | nil => simp [runLenAux]
  | cons x xs ih =>
    unfold runLenAux
    split
    case isTrue hx =>
      intro j hj
      cases j with
      | zero => simpa using hx
      | succ m => simpa using ih m (by omega)
    case isFalse hx => omega

lemma runChars (code : List Char) (ip : Nat) (c : Char) (hc : code[ip]? = some c) :
    1 ≤ runLenAux (code.drop ip) c ∧ ip + runLenAux (code.drop ip) c ≤ code.length ∧
    ∀ j < runLenAux (code.drop ip) c, code[ip + j]? = some c := by
  have hlt : ip < code.length := lt_len_of_getElem? code ip c hc
  refine ⟨?_, ?_, ?_⟩
  · rcases hd : code.drop ip with _ | ⟨x, xs⟩
    · rw [List.drop_eq_nil_iff] at hd; omega
    · have hx : x = c := by
        have := getElem?_of_drop_cons code ip x xs hd
        exact Option.some_inj.mp (this.symm.trans hc)
      subst hx
      unfold runLenAux
      rw [if_pos rfl]
      omega
  · have := runLenAux_le (code.drop ip) c
    rw [List.length_drop] at this
    omega
  · intro j hj
    have := runLenAux_get (code.drop ip) c j hj
    rwa [List.getElem?_drop] at this

lemma getD_of_getElem? (l : List Char) (p : Nat) (c : Char) (h : l[p]? = some c) :
    l.getD p ' ' = c := by
  rw [List.getD_eq_getElem?_getD, h]
  rfl

/-! ### C1: `stepsTo` utilities -/

lemma stepsTo_congr (fold : Bool) (env : Env) (k : Nat) (st s s' : VMState)
    (h : stepsTo fold env k st s) (heq : s = s') : stepsTo fold env k st s' :=
  heq ▸ h

lemma run_zero (fold : Bool) (env : Env) (st : VMState) :
    run fold env 0 st = .more st := rfl

lemma run_succ (fold : Bool) (env : Env) (fuel : Nat) (st : VMState) :
    run fold env (fuel + 1) st =
      if st.ip < env.code.length then
        match stepIter fold env st with
        | .cont s => run fold env fuel s
        | .halt e s => .done e s
      else
        .done (st.output.length : Int)
          { st with output := st.output ++
              (if st.output.length < env.outMax then [0] else []) } := rfl

lemma stepsTo_run (env : Env) (k : Nat) (st s : VMState)
    (h : stepsTo false env k st s) :
    ∀ f, run false env (k + f) st = run false env f s := by
  induction h with
  | zero => intro f; rw [Nat.zero_add]
  | succ st s1 s' k hip hstep hrest ih =>
    intro f
    rw [show k + 1 + f = (k + f) + 1 by omega, run_succ, if_pos hip, hstep]
    exact ih f

lemma stepsTo_det (env : Env) (k : Nat) (st s1 : VMState)
    (h : stepsTo false env k st s1) :
    ∀ fuel c t, run false env fuel st = .done c t →
      k ≤ fuel ∧ run false env (fuel - k) s1 = .done c t := by
  induction h with
  | zero => intro fuel c t hr; exact ⟨by omega, by simpa using hr⟩
  | succ st s s' k hip hstep hrest ih =>
    intro fuel c t hr
    cases fuel with
    | zero => simp [run] at hr
    | succ g =>
      rw [run_succ, if_pos hip, hstep] at hr
      dsimp only at hr
      obtain ⟨hle, hrem⟩ := ih g c t hr
      exact ⟨by omega, by rw [show g + 1 - (k + 1) = g - k by omega]; exact hrem⟩

/-! ### C1: unfolded dispatch of the four foldable instructions -/

lemma dispatchU_inc (env : Env) (st : VMState) (hc : env.code[st.ip]? = some '+') :
    dispatch false env st = .cont { st with
      memory := st.memory.set st.dp ((cellOf st + 1) % 256), ip := st.ip + 1 } := by
  have hd : decode (env.code.getD st.ip ' ') = .inc := by
    rw [getD_of_getElem? _ _ _ hc]
    rfl
  unfold dispatch
  rw [hd]
  dsimp only
  rw [show foldCount false env st = 1 from rfl]

lemma dispatchU_dec (env : Env) (st : VMState) (hc : env.code[st.ip]? = some '-') :
    dispatch false env st = .cont { st with
      memory := st.memory.set st.dp ((cellOf st + 255 * 1) % 256), ip := st.ip + 1 } := by
  have hd : decode (env.code.getD st.ip ' ') = .dec := by
    rw [getD_of_getElem? _ _ _ hc]
    rfl
  unfold dispatch
  rw [hd]
  dsimp only
  rw [show foldCount false env st = 1 from rfl]

lemma dispatchU_right (env : Env) (st : VMState) (hc : env.code[st.ip]? = some '>')
    (hok : ¬ env.memSize ≤ st.dp + 1) :
    dispatch false env st = .cont { st with dp := st.dp + 1, ip := st.ip + 1 } := by
  have hd : decode (env.code.getD st.ip ' ') = .right := by
    rw [getD_of_getElem? _ _ _ hc]
    rfl
  unfold dispatch
  rw [hd]
  dsimp only
  rw [show foldCount false env st = 1 from rfl, if_neg hok]

lemma dispatchU_right_fail (env : Env) (st : VMState) (hc : env.code[st.ip]? = some '>')
    (hbad : env.memSize ≤ st.dp + 1) :
    dispatch false env st = .halt BF_ERR_MEMORY_OUT_OF_BOUNDS st := by
  have hd : decode (env.code.getD st.ip ' ') = .right := by
    rw [getD_of_getElem? _ _ _ hc]
    rfl
  unfold dispatch
  rw [hd]
  dsimp only
  rw [show foldCount false env st = 1 from rfl, if_pos hbad]

lemma dispatchU_left (env : Env) (st : VMState) (hc : env.code[st.ip]? = some '<')
    (hok : ¬ st.dp < 1) :
    dispatch false env st = .cont { st with dp := st.dp - 1, ip := st.ip + 1 } := by
  have hd : decode (env.code.getD st.ip ' ') = .left := by
    rw [getD_of_getElem? _ _ _ hc]
    rfl
  unfold dispatch
  rw [hd]
  dsimp only
  rw [show foldCount false env st = 1 from rfl, if_neg hok]

lemma dispatchU_left_fail (env : Env) (st : VMState) (hc : env.code[st.ip]? = some '<')
    (hbad : st.dp < 1) :
    dispatch false env st = .halt BF_ERR_MEMORY_OUT_OF_BOUNDS st := by
  have hd : decode (env.code.getD st.ip ' ') = .left := by
    rw [getD_of_getElem? _ _ _ hc]
    rfl
  unfold dispatch
  rw [hd]
  dsimp only
  rw [show foldCount false env st = 1 from rfl, if_pos hbad]

/-! ### C1: character-at-a-time simulation of each folded operation -/

lemma mem_chain_plus (mem : List Nat) (dp n : Nat) :
    (mem.set dp ((mem.getD dp 0 + 1) % 256)).set dp
        (((mem.set dp ((mem.getD dp 0 + 1) % 256)).getD dp 0 + (n + 1)) % 256)
      = mem.set dp ((mem.getD dp 0 + (n + 2)) % 256) := by
  rcases lt_or_le dp mem.length with h | h
  · have hv : (mem.set dp ((mem.getD dp 0 + 1) % 256)).getD dp 0
        = (mem.getD dp 0 + 1) % 256 := by
      rw [List.getD_eq_getElem?_getD, List.getElem?_set_eq_of_lt _ (by simpa using h)]
      rfl
    rw [List.set_set, hv, Nat.mod_add_mod,
      show mem.getD dp 0 + 1 + (n + 1) = mem.getD dp 0 + (n + 2) by omega]
  · simp [List.set_eq_of_length_le h]

lemma mem_chain_minus (mem : List Nat) (dp n : Nat) :
    (mem.set dp ((mem.getD dp 0 + 255 * 1) % 256)).set dp
        (((mem.set dp ((mem.getD dp 0 + 255 * 1) % 256)).getD dp 0 + 255 * (n + 1)) % 256)
      = mem.set dp ((mem.getD dp 0 + 255 * (n + 2)) % 256) := by
  rcases lt_or_le dp mem.length with h | h
  · have hv : (mem.set dp ((mem.getD dp 0 + 255 * 1) % 256)).getD dp 0
        = (mem.getD dp 0 + 255 * 1) % 256 := by
      rw [List.getD_eq_getElem?_getD, List.getElem?_set_eq_of_lt _ (by simpa using h)]
      rfl
    rw [List.set_set, hv, Nat.mod_add_mod,
      show mem.getD dp 0 + 255 * 1 + 255 * (n + 1) = mem.getD dp 0 + 255 * (n + 2) by omega]
  · simp [List.set_eq_of_length_le h]

lemma plus_steps (env : Env) (hOff : env.hook = none ∨ env.singleStep = false) :
    ∀ n (st : VMState), (∀ j < n + 1, env.code[st.ip + j]? = some '+') →
    stepsTo false env (n + 1) st
      { st with memory := st.memory.set st.dp ((cellOf st + (n + 1)) % 256),
                ip := st.ip + (n + 1) } := by
  intro n
  induction n with
  | zero =>
    intro st hch
    have hc : env.code[st.ip]? = some '+' := by simpa using hch 0 (by omega)
    have hip : st.ip < env.code.length := lt_len_of_getElem? _ _ _ hc
    have hstep : stepIter false env st = .cont { st with
        memory := st.memory.set st.dp ((cellOf st + 1) % 256), ip := st.ip + 1 } := by
      rw [stepIter_hookOff false env st hOff]
      exact dispatchU_inc env st hc
    exact .succ st _ _ 0 hip hstep (.zero _)
  | succ m ih =>
    intro st hch
    have hc : env.code[st.ip]? = some '+' := by simpa using hch 0 (by omega)
    have hip : st.ip < env.code.length := lt_len_of_getElem? _ _ _ hc
    have hstep : stepIter false env st = .cont { st with
        memory := st.memory.set st.dp ((cellOf st + 1) % 256), ip := st.ip + 1 } := by
      rw [stepIter_hookOff false env st hOff]
      exact dispatchU_inc env st hc
    have hch1 : ∀ j < m + 1, env.code[st.ip + 1 + j]? = some '+' := by
      intro j hj
      have := hch (j + 1) (by omega)
      rw [show st.ip + 1 + j = st.ip + (j + 1) by omega]
      exact this
    have hrest := ih { st with
      memory := st.memory.set st.dp ((cellOf st + 1) % 256), ip := st.ip + 1 } hch1
    refine stepsTo_congr false env (m + 1 + 1) st _ _
      (.succ st _ _ (m + 1) hip hstep hrest) ?_
    dsimp only
    unfold cellOf
    dsimp only
    rw [show st.ip + 1 + (m + 1) = st.ip + (m + 1 + 1) by omega]
    rw [mem_chain_plus]

lemma minus_steps (env : Env) (hOff : env.hook = none ∨ env.singleStep = false) :
    ∀ n (st : VMState), (∀ j < n + 1, env.code[st.ip + j]? = some '-') →
    stepsTo false env (n + 1) st
      { st with memory := st.memory.set st.dp ((cellOf st + 255 * (n + 1)) % 256),
                ip := st.ip + (n + 1) } := by
  intro n
  induction n with
  | zero =>
    intro st hch
    have hc : env.code[st.ip]? = some '-' := by simpa using hch 0 (by omega)
    have hip : st.ip < env.code.length := lt_len_of_getElem? _ _ _ hc
    have hstep : stepIter false env st = .cont { st with
        memory := st.memory.set st.dp ((cellOf st + 255 * 1) % 256), ip := st.ip + 1 } := by
      rw [stepIter_hookOff false env st hOff]
      exact dispatchU_dec env st hc
    exact .succ st _ _ 0 hip hstep (.zero _)
  | succ m ih =>
    intro st hch
    have hc : env.code[st.ip]? = some '-' := by simpa using hch 0 (by omega)
    have hip : st.ip < env.code.length := lt_len_of_getElem? _ _ _ hc
    have hstep : stepIter false env st = .cont { st with
        memory := st.memory.set st.dp ((cellOf st + 255 * 1) % 256), ip := st.ip + 1 } := by
      rw [stepIter_hookOff false env st hOff]
      exact dispatchU_dec env st hc
    have hch1 : ∀ j < m + 1, env.code[st.ip + 1 + j]? = some '-' := by
      intro j hj
      have := hch (j + 1) (by omega)
      rw [show st.ip + 1 + j = st.ip + (j + 1) by omega]
      exact this
    have hrest := ih { st with
      memory := st.memory.set st.dp ((cellOf st + 255 * 1) % 256), ip := st.ip + 1 } hch1
    refine stepsTo_congr false env (m + 1 + 1) st _ _
      (.succ st _ _ (m + 1) hip hstep hrest) ?_
    dsimp only
    unfold cellOf
    dsimp only
    rw [show st.ip + 1 + (m + 1) = st.ip + (m + 1 + 1) by omega]
    rw [mem_chain_minus]

lemma right_steps (env : Env) (hOff : env.hook = none ∨ env.singleStep = false) :
    ∀ n (st : VMState), (∀ j < n + 1, env.code[st.ip + j]? = some '>') →
    st.dp + (n + 1) < env.memSize →
    stepsTo false env (n + 1) st
      { st with dp := st.dp + (n + 1), ip := st.ip + (n + 1) } := by
  intro n
  induction n with
  | zero =>
    intro st hch hbound
    have hc : env.code[st.ip]? = some '>' := by simpa using hch 0 (by omega)
    have hip : st.ip < env.code.length := lt_len_of_getElem? _ _ _ hc
    have hstep : stepIter false env st
        = .cont { st with dp := st.dp + 1, ip := st.ip + 1 } := by
      rw [stepIter_hookOff false env st hOff]
      exact dispatchU_right env st hc (by omega)
    exact .succ st _ _ 0 hip hstep (.zero _)
  | succ m ih =>
    intro st hch hbound
    have hc : env.code[st.ip]? = some '>' := by simpa using hch 0 (by omega)
    have hip : st.ip < env.code.length := lt_len_of_getElem? _ _ _ hc
    have hstep : stepIter false env st
        = .cont { st with dp := st.dp + 1, ip := st.ip + 1 } := by
      rw [stepIter_hookOff false env st hOff]
      exact dispatchU_right env st hc (by omega)
    have hch1 : ∀ j < m + 1, env.code[st.ip + 1 + j]? = some '>' := by
      intro j hj
      have := hch (j + 1) (by omega)
      rw [show st.ip + 1 + j = st.ip + (j + 1) by omega]
      exact this
    have hrest := ih { st with dp := st.dp + 1, ip := st.ip + 1 } hch1
      (by dsimp only; omega)
    refine stepsTo_congr false env (m + 1 + 1) st _ _
      (.succ st _ _ (m + 1) hip hstep hrest) ?_
    dsimp only
    rw [show st.ip + 1 + (m + 1) = st.ip + (m + 1 + 1) by omega,
      show st.dp + 1 + (m + 1) = st.dp + (m + 1 + 1) by omega]

lemma left_steps (env : Env) (hOff : env.hook = none ∨ env.singleStep = false) :
    ∀ n (st : VMState), (∀ j < n + 1, env.code[st.ip + j]? = some '<') →
    n + 1 ≤ st.dp →
    stepsTo false env (n + 1) st
      { st with dp := st.dp - (n + 1), ip := st.ip + (n + 1) } := by
  intro n
  induction n with
  | zero =>
    intro st hch hbound
    have hc : env.code[st.ip]? = some '<' := by simpa using hch 0 (by omega)
    have hip : st.ip < env.code.length := lt_len_of_getElem? _ _ _ hc
    have hstep : stepIter false env st
        = .cont { st with dp := st.dp - 1, ip := st.ip + 1 } := by
      rw [stepIter_hookOff false env st hOff]
      exact dispatchU_left env st hc (by omega)
    exact .succ st _ _ 0 hip hstep (.zero _)
  | succ m ih =>
    intro st hch hbound
    have hc : env.code[st.ip]? = some '<' := by simpa using hch 0 (by omega)
    have hip : st.ip < env.code.length := lt_len_of_getElem? _ _ _ hc
    have hstep : stepIter false env st
        = .cont { st with dp := st.dp - 1, ip := st.ip + 1 } := by
      rw [stepIter_hookOff false env st hOff]
      exact dispatchU_left env st hc (by omega)
    have hch1 : ∀ j < m + 1, env.code[st.ip + 1 + j]? = some '<' := by
      intro j hj
      have := hch (j + 1) (by omega)
      rw [show st.ip + 1 + j = st.ip + (j + 1) by omega]
      exact this
    have hrest := ih { st with dp := st.dp - 1, ip := st.ip + 1 } hch1
      (by dsimp only; omega)
    refine stepsTo_congr false env (m + 1 + 1) st _ _
      (.succ st _ _ (m + 1) hip hstep hrest) ?_
    dsimp only
    rw [show st.ip + 1 + (m + 1) = st.ip + (m + 1 + 1) by omega,
      show st.dp - 1 - (m + 1) = st.dp - (m + 1 + 1) by omega]

lemma right_fail (env : Env) (hOff : env.hook = none ∨ env.singleStep = false) :
    ∀ n (st : VMState), (∀ j < n, env.code[st.ip + j]? = some '>') → 1 ≤ n →
    env.memSize ≤ st.dp + n →
    ∃ k t, k < n ∧ stepsTo false env k st t ∧ t.ip < env.code.length ∧
      stepIter false env t = .halt BF_ERR_MEMORY_OUT_OF_BOUNDS t ∧
      t.memory = st.memory ∧ t.output = st.output ∧ t.inPtr = st.inPtr ∧
      t.hookCalls = st.hookCalls := by
  intro n
  induction n with
  | zero => intro st _ h1; omega
  | succ m ih =>
    intro st hch hpos hbad
    have hc : env.code[st.ip]? = some '>' := by simpa using hch 0 (by omega)
    have hip : st.ip < env.code.length := lt_len_of_getElem? _ _ _ hc
    by_cases hfirst : env.memSize ≤ st.dp + 1
    · refine ⟨0, st, by omega, .zero st, hip, ?_, rfl, rfl, rfl, rfl⟩
      rw [stepIter_hookOff false env st hOff]
      exact dispatchU_right_fail env st hc hfirst
    · have hstep : stepIter false env st
          = .cont { st with dp := st.dp + 1, ip := st.ip + 1 } := by
        rw [stepIter_hookOff false env st hOff]
        exact dispatchU_right env st hc hfirst
      have hch1 : ∀ j < m, env.code[st.ip + 1 + j]? = some '>' := by
        intro j hj
        have := hch (j + 1) (by omega)
        rw [show st.ip + 1 + j = st.ip + (j + 1) by omega]
        exact this
      obtain ⟨k, t, hk, hsteps, htip, hthalt, hm, ho, hi2, hh2⟩ :=
        ih { st with dp := st.dp + 1, ip := st.ip + 1 } hch1 (by omega)
          (by dsimp only; omega)
      exact ⟨k + 1, t, by omega, .succ st _ _ k hip hstep hsteps, htip, hthalt,
        hm, ho, hi2, hh2⟩

lemma left_fail (env : Env) (hOff : env.hook = none ∨ env.singleStep = false) :
    ∀ n (st : VMState), (∀ j < n, env.code[st.ip + j]? = some '<') → 1 ≤ n →
    st.dp < n →
    ∃ k t, k < n ∧ stepsTo false env k st t ∧ t.ip < env.code.length ∧
      stepIter false env t = .halt BF_ERR_MEMORY_OUT_OF_BOUNDS t ∧
      t.memory = st.memory ∧ t.output = st.output ∧ t.inPtr = st.inPtr ∧
      t.hookCalls = st.hookCalls := by
  intro n
  induction n with
  | zero => intro st _ h1; omega
  | succ m ih =>
    intro st hch hpos hbad
    have hc : env.code[st.ip]? = some '<' := by simpa using hch 0 (by omega)
    have hip : st.ip < env.code.length := lt_len_of_getElem? _ _ _ hc
    by_cases hfirst : st.dp < 1
    · refine ⟨0, st, by omega, .zero st, hip, ?_, rfl, rfl, rfl, rfl⟩
      rw [stepIter_hookOff false env st hOff]
      exact dispatchU_left_fail env st hc hfirst
    · have hstep : stepIter false env st
          = .cont { st with dp := st.dp - 1, ip := st.ip + 1 } := by
        rw [stepIter_hookOff false env st hOff]
        exact dispatchU_left env st hc hfirst
      have hch1 : ∀ j < m, env.code[st.ip + 1 + j]? = some '<' := by
        intro j hj
        have := hch (j + 1) (by omega)
        rw [show st.ip + 1 + j = st.ip + (j + 1) by omega]
        exact this
      obtain ⟨k, t, hk, hsteps, htip, hthalt, hm, ho, hi2, hh2⟩ :=
        ih { st with dp := st.dp - 1, ip := st.ip + 1 } hch1 (by omega)
          (by dsimp only; omega)
      exact ⟨k + 1, t, by omega, .succ st _ _ k hip hstep hsteps, htip, hthalt,
        hm, ho, hi2, hh2⟩

lemma decode_chars (c : Char) :
    (decode c = .right → c = '>') ∧ (decode c = .left → c = '<') ∧
    (decode c = .inc → c = '+') ∧ (decode c = .dec → c = '-') := by
  unfold decode
  repeat' split
  all_goals refine ⟨?_, ?_, ?_, ?_⟩ <;> intro h <;> first
    | assumption
    | exact absurd h (by decide)

/-- One folded loop iteration corresponds to a positive number of
character-at-a-time iterations with the same continuation state, or —
when it halts — to a character-at-a-time prefix reaching the same
halt code with the same tape, output, input cursor and hook count. -/
lemma stepDiagram (env : Env) (hOff : env.hook = none ∨ env.singleStep = false)
    (st : VMState) (hip : st.ip < env.code.length) :
    (∀ s, stepIter true env st = .cont s → ∃ k, 1 ≤ k ∧ stepsTo false env k st s) ∧
    (∀ e s, stepIter true env st = .halt e s → e < 0 ∧
      ∃ k t t2, stepsTo false env k st t ∧ t.ip < env.code.length ∧
        stepIter false env t = .halt e t2 ∧ s.memory = t2.memory ∧
        s.output = t2.output ∧ s.inPtr = t2.inPtr ∧ s.hookCalls = t2.hookCalls) := by
  have hSrw : ∀ fold, stepIter fold env st = dispatch fold env st := fun fold =>
    stepIter_hookOff fold env st hOff
  by_cases hch1 : env.code.getD st.ip ' ' = '>'
  case pos =>
    have hce : env.code[st.ip]? = some '>' := getElem?_of_getD env.code st.ip hip '>' hch1
    obtain ⟨hn1, hnlen, hchars⟩ := runChars env.code st.ip '>' hce
    have hd : decode (env.code.getD st.ip ' ') = .right := by rw [hch1]; rfl
    have hfc : foldCount true env st = runLenAux (env.code.drop st.ip) '>' := by
      unfold foldCount
      rw [hch1]
      rfl
    obtain ⟨m, hm⟩ : ∃ m, runLenAux (env.code.drop st.ip) '>' = m + 1 :=
      ⟨runLenAux (env.code.drop st.ip) '>' - 1, by omega⟩
    constructor
    · intro s hs
      rw [hSrw] at hs
      unfold dispatch at hs
      rw [hd] at hs
      dsimp only at hs
      rw [hfc] at hs
      split at hs
      · injection hs
      · rename_i hbound
        injection hs with hs1
        subst hs1
        refine ⟨runLenAux (env.code.drop st.ip) '>', hn1, ?_⟩
        rw [hm] at hchars hbound ⊢
        exact right_steps env hOff m st hchars (by omega)
    · intro e s hs
      rw [hSrw] at hs
      unfold dispatch at hs
      rw [hd] at hs
      dsimp only at hs
      rw [hfc] at hs
      split at hs
      · rename_i hbound
        injection hs with he hs1
        subst he
        subst hs1
        refine ⟨by decide, ?_⟩
        obtain ⟨k, t, hk, hsteps, htip, hthalt, hmem, hout, hin, hhc⟩ :=
          right_fail env hOff (runLenAux (env.code.drop st.ip) '>') st hchars hn1 hbound
        exact ⟨k, t, t, hsteps, htip, hthalt, hmem.symm, hout.symm, hin.symm, hhc.symm⟩
      · injection hs
  case neg =>
    by_cases hch2 : env.code.getD st.ip ' ' = '<'
    case pos =>
      have hce : env.code[st.ip]? = some '<' := getElem?_of_getD env.code st.ip hip '<' hch2
      obtain ⟨hn1, hnlen, hchars⟩ := runChars env.code st.ip '<' hce
      have hd : decode (env.code.getD st.ip ' ') = .left := by rw [hch2]; rfl
      have hfc : foldCount true env st = runLenAux (env.code.drop st.ip) '<' := by
        unfold foldCount
        rw [hch2]
        rfl
      obtain ⟨m, hm⟩ : ∃ m, runLenAux (env.code.drop st.ip) '<' = m + 1 :=
        ⟨runLenAux (env.code.drop st.ip) '<' - 1, by omega⟩
      constructor
      · intro s hs
        rw [hSrw] at hs
        unfold dispatch at hs
        rw [hd] at hs
        dsimp only at hs
        rw [hfc] at hs
        split at hs
        · injection hs
        · rename_i hbound
          injection hs with hs1
          subst hs1
          refine ⟨runLenAux (env.code.drop st.ip) '<', hn1, ?_⟩
          rw [hm] at hchars hbound ⊢
          exact left_steps env hOff m st hchars (by omega)
      · intro e s hs
        rw [hSrw] at hs
        unfold dispatch at hs
        rw [hd] at hs
        dsimp only at hs
        rw [hfc] at hs
        split at hs
        · rename_i hbound
          injection hs with he hs1
          subst he
          subst hs1
          refine ⟨by decide, ?_⟩
          obtain ⟨k, t, hk, hsteps, htip, hthalt, hmem, hout, hin, hhc⟩ :=
            left_fail env hOff (runLenAux (env.code.drop st.ip) '<') st hchars hn1 hbound
          exact ⟨k, t, t, hsteps, htip, hthalt, hmem.symm, hout.symm, hin.symm, hhc.symm⟩
        · injection hs
    case neg =>
      by_cases hch3 : env.code.getD st.ip ' ' = '+'
      case pos =>
        have hce : env.code[st.ip]? = some '+' := getElem?_of_getD env.code st.ip hip '+' hch3
        obtain ⟨hn1, hnlen, hchars⟩ := runChars env.code st.ip '+' hce
        have hd : decode (env.code.getD st.ip ' ') = .inc := by rw [hch3]; rfl
        have hfc : foldCount true env st = runLenAux (env.code.drop st.ip) '+' := by
          unfold foldCount
          rw [hch3]
          rfl
        obtain ⟨m, hm⟩ : ∃ m, runLenAux (env.code.drop st.ip) '+' = m + 1 :=
          ⟨runLenAux (env.code.drop st.ip) '+' - 1, by omega⟩
        constructor
        · intro s hs
          rw [hSrw] at hs
          unfold dispatch at hs
          rw [hd] at hs
          dsimp only at hs
          rw [hfc] at hs
          injection hs with hs1
          subst hs1
          refine ⟨runLenAux (env.code.drop st.ip) '+', hn1, ?_⟩
          rw [hm] at hchars ⊢
          exact plus_steps env hOff m st hchars
        · intro e s hs
          rw [hSrw] at hs
          unfold dispatch at hs
          rw [hd] at hs
          dsimp only at hs
          injection hs
      case neg =>
        by_cases hch4 : env.code.getD st.ip ' ' = '-'
        case pos =>
          have hce : env.code[st.ip]? = some '-' := getElem?_of_getD env.code st.ip hip '-' hch4
          obtain ⟨hn1, hnlen, hchars⟩ := runChars env.code st.ip '-' hce
          have hd : decode (env.code.getD st.ip ' ') = .dec := by rw [hch4]; rfl
          have hfc : foldCount true env st = runLenAux (env.code.drop st.ip) '-' := by
            unfold foldCount
            rw [hch4]
            rfl
          obtain ⟨m, hm⟩ : ∃ m, runLenAux (env.code.drop st.ip) '-' = m + 1 :=
            ⟨runLenAux (env.code.drop st.ip) '-' - 1, by omega⟩
          constructor
          · intro s hs
            rw [hSrw] at hs
            unfold dispatch at hs
            rw [hd] at hs
            dsimp only at hs
            rw [hfc] at hs
            injection hs with hs1
            subst hs1
            refine ⟨runLenAux (env.code.drop st.ip) '-', hn1, ?_⟩
            rw [hm] at hchars ⊢
            exact minus_steps env hOff m st hchars
          · intro e s hs
            rw [hSrw] at hs
            unfold dispatch at hs
            rw [hd] at hs
            dsimp only at hs
            injection hs
        case neg =>
          have hdeq : dispatch true env st = dispatch false env st := by
            unfold dispatch
            rcases hI : decode (env.code.getD st.ip ' ') with
              _ | _ | _ | _ | _ | _ | _ | _ | _
            · exact absurd ((decode_chars _).1 hI) hch1
            · exact absurd ((decode_chars _).2.1 hI) hch2
            · exact absurd ((decode_chars _).2.2.1 hI) hch3
            · exact absurd ((decode_chars _).2.2.2 hI) hch4
            all_goals rfl
          constructor
          · intro s hs
            rw [hSrw true, hdeq, ← hSrw false] at hs
            exact ⟨1, by omega, .succ st s s 0 hip hs (.zero s)⟩
          · intro e s hs
            rw [hSrw true, hdeq, ← hSrw false] at hs
            exact ⟨(stepIter_halt_codes false env st e s hs).2, 0, st, s,
              .zero st, hip, hs, rfl, rfl, rfl, rfl⟩

lemma run_fwd (env : Env) (hOff : env.hook = none ∨ env.singleStep = false) :
    ∀ fuel st c s, run true env fuel st = .done c s →
      ∃ fuel2 t, run false env fuel2 st = .done c t ∧ obsEq c s t := by
  intro fuel
  induction fuel with
  | zero => intro st c s h; simp [run] at h
  | succ n ih =>
    intro st c s h
    rw [run_succ] at h
    split at h
    case isTrue hip =>
      rcases hS : stepIter true env st with s1 | ⟨e1, s1⟩ <;> rw [hS] at h <;>
        dsimp only at h
      · obtain ⟨f2, t, hrun, hobs⟩ := ih s1 c s h
        obtain ⟨k, hk1, hsteps⟩ := (stepDiagram env hOff st hip).1 s1 hS
        exact ⟨k + f2, t, by rw [stepsTo_run env k st s1 hsteps f2]; exact hrun, hobs⟩
      · injection h with h1 h2
        subst h1
        subst h2
        obtain ⟨hneg, k, t, t2, hsteps, htip, hstepF, hmem, hout, hin, hhc⟩ :=
          (stepDiagram env hOff st hip).2 e1 s1 hS
        refine ⟨k + 1, t2, ?_, hmem, hout, hin, hhc, fun h' => absurd h' (by omega)⟩
        rw [stepsTo_run env k st t hsteps 1, run_succ, if_pos htip, hstepF]
    case isFalse hip =>
      exact ⟨1, s, by rw [run_succ, if_neg hip]; exact h,
        rfl, rfl, rfl, rfl, fun _ => rfl⟩

lemma run_bwd (env : Env) (hOff : env.hook = none ∨ env.singleStep = false) :
    ∀ fuel st c t, run false env fuel st = .done c t →
      ∃ fuel2 s, run true env fuel2 st = .done c s ∧ obsEq c s t := by
  intro fuel
  induction fuel using Nat.strong_induction_on with
  | _ fuel ih =>
    intro st c t h
    by_cases hip : st.ip < env.code.length
    · rcases hS : stepIter true env st with s1 | ⟨e1, s1⟩
      · obtain ⟨k, hk1, hsteps⟩ := (stepDiagram env hOff st hip).1 s1 hS
        obtain ⟨hkle, hrem⟩ := stepsTo_det env k st s1 hsteps fuel c t h
        have hne : fuel ≠ k := by
          intro hkf
          rw [hkf, Nat.sub_self, run_zero] at hrem
          exact RunRes.noConfusion hrem
        obtain ⟨f2, s, hrun, hobs⟩ := ih (fuel - k) (by omega) s1 c t hrem
        refine ⟨f2 + 1, s, ?_, hobs⟩
        rw [run_succ, if_pos hip, hS]
        exact hrun
      · obtain ⟨hneg, k, tt, t2, hsteps, htip, hstepF, hmem, hout, hin, hhc⟩ :=
          (stepDiagram env hOff st hip).2 e1 s1 hS
        obtain ⟨hkle, hrem⟩ := stepsTo_det env k st tt hsteps fuel c t h
        rcases hfk : fuel - k with _ | g
        · rw [hfk, run_zero] at hrem
          exact absurd hrem (by simp)
        · rw [hfk, run_succ, if_pos htip, hstepF] at hrem
          dsimp only at hrem
          injection hrem with hc ht
          subst hc
          subst ht
          refine ⟨1, s1, ?_, hmem, hout, hin, hhc, fun h' => absurd h' (by omega)⟩
          rw [run_succ, if_pos hip, hS]
    · rcases fuel with _ | g
      · rw [run_zero] at h
        exact absurd h (by simp)
      · rw [run_succ, if_neg hip] at h
        refine ⟨1, t, ?_, rfl, rfl, rfl, rfl, fun _ => rfl⟩
        rw [run_succ, if_neg hip]
        exact h

/-- C1: for every program, jump table, input and tape capacity (and
any start state), with stepping inactive, the folded execution and
the character-at-a-time execution are semantically indistinguishable:
whenever one terminates with result code `c`, so does the other with
the same code; their tapes, output bytes and input cursors agree, and
on success (`0 ≤ c`) the entire final states — `dp` and `ip`
included — are identical.  A folded run whose displacement goes out
of bounds is rejected as a whole with the same out-of-bounds code at
the same boundary the character-by-character loop hits, with no
partial displacement captured in the folded engine's failure state. -/
theorem C1_folding_equivalence (env : Env)
    (hOff : env.hook = none ∨ env.singleStep = false) (st : VMState) :
    (∀ fuel c s, run true env fuel st = .done c s →
      ∃ fuel2 t, run false env fuel2 st = .done c t ∧ obsEq c s t) ∧
    (∀ fuel c t, run false env fuel st = .done c t →
      ∃ fuel2 s, run true env fuel2 st = .done c s ∧ obsEq c s t) :=
  ⟨fun fuel => run_fwd env hOff fuel st, fun fuel => run_bwd env hOff fuel st⟩

/-- Witness for C1: the folded run of `+++.` terminates with success
code 1, so the character-at-a-time run does too, with an identical
final state. -/
theorem C1_witness :
    ∃ fuel2 t, run false
        { code := ['+', '+', '+', '.'], jump := [none, none, none, none],
          input := none, outMax := 1, memSize := 1, hook := none,
          singleStep := false }
        fuel2 (initState 1)
      = .done 1 t ∧
      obsEq 1 { memory := [3], dp := 0, ip := 4, inPtr := 0, output := [3],
                hookCalls := 0 } t :=
  (C1_folding_equivalence
      { code := ['+', '+', '+', '.'], jump := [none, none, none, none],
        input := none, outMax := 1, memSize := 1, hook := none,
        singleStep := false }
      (Or.inl rfl) (initState 1)).1 10 1
    { memory := [3], dp := 0, ip := 4, inPtr := 0, output := [3], hookCalls := 0 }
    (by decide)

/-- Witness for C8, applying the input-remaining case at a concrete
one-byte input. -/
theorem C8_witness :
    dispatch false
      { code := [','], jump := [none], input := some [65], outMax := 0,
        memSize := 1, hook := none, singleStep := false }
      (initState 1)
      = .cont { memory := [65], dp := 0, ip := 1, inPtr := 1, output := [],
                hookCalls := 0 } := by
  have h := C8_comma_semantics.1 false
    { code := [','], jump := [none], input := some [65], outMax := 0,
      memSize := 1, hook := none, singleStep := false }
    (initState 1) [65] (by decide) rfl (by decide)
  rw [h]
  decide

end BfVm
